import Mathlib

/-!
Shallow embedding of `src/maestral/cli.py`: the table layout engine
(`format_table` and its helpers), the daemon lifecycle commands
(`start`, `stop`, `restart`, `pause`, `status`) and the live activity
monitor loop, together with theorems settling the specification claims
about them.

Conventions:
* Python strings are modelled as `List Char`; Python `len` is
  `List.length` (ASCII data, one code point per char).
* Python 3 `round` (round half to even) on the exact rational value
  `a / b` is `pyRoundFrac a b`; `pyRound` is the same operation on `ℚ`.
  The source line `round(w - subtract * w**n / sum_widths)` performs the
  division in floating point; it is modelled here in exact rational
  arithmetic (for the magnitudes involved the results agree).
* Fallible code returns `Except PyErr`; a `.error` value models a
  raised Python exception.
* `click.get_terminal_size()` is modelled by an explicit
  `terminal_width` argument.
* Python truthiness of optional list arguments (`None` and `[]` are
  both falsy) is modelled by `optTruthy`.
* `textwrap.wrap` is modelled with its default options except that the
  default `break_on_hyphens=True` word chunking is not modelled: the
  model chunks only at whitespace, which coincides with the default
  chunking precisely on hyphen-free text.  Every theorem about
  `pyWrap` that quantifies over texts therefore carries a hyphen-free
  hypothesis, and every concrete input used with it is hyphen-free.
-/

/-- Python exception kinds raised by the code paths modelled here. -/
inductive PyErr where
  | valueError (msg : String)
  | zeroDivisionError
  | indexError
  deriving DecidableEq, Repr

instance {ε α : Type} [DecidableEq ε] [DecidableEq α] : DecidableEq (Except ε α) :=
  fun x y =>
    match x, y with
    | .ok a, .ok b =>
        if h : a = b then isTrue (by rw [h])
        else isFalse (by intro hc; cases hc; exact h rfl)
    | .error a, .error b =>
        if h : a = b then isTrue (by rw [h])
        else isFalse (by intro hc; cases hc; exact h rfl)
    | .ok _, .error _ => isFalse (fun hc => Except.noConfusion hc)
    | .error _, .ok _ => isFalse (fun hc => Except.noConfusion hc)

/-- `LEFT, CENTER, RIGHT = range(3)` from `cli.py` line 50. -/
def LEFT : ℤ := 0

/-- `CENTER` alignment tag (`cli.py` line 50). -/
def CENTER : ℤ := 1

/-- `RIGHT` alignment tag (`cli.py` line 50). -/
def RIGHT : ℤ := 2

/-- Python truthiness of an optional list (`None` and `[]` are falsy). -/
def optTruthy {α : Type} : Option (List α) → Bool
  | none => false
  | some [] => false
  | some (_ :: _) => true

/-- Python 3 `round` of the exact fraction `a / b` (for `0 < b`): round
to the nearest integer, ties to the even integer (banker's rounding).
`a / b` below is `Int.ediv`, which is floor division for `0 < b`, and
`2 * (a - b * (a / b))` is twice the remainder. -/
def pyRoundFrac (a b : ℤ) : ℤ :=
  if 2 * (a - b * (a / b)) < b then a / b
  else if b < 2 * (a - b * (a / b)) then a / b + 1
  else if (a / b) % 2 = 0 then a / b else a / b + 1

/-- Python 3 `round` on an exact rational value. -/
def pyRound (q : ℚ) : ℤ := pyRoundFrac q.num q.den

theorem pyRoundFrac_scale (k a b : ℤ) (hk : 0 < k) :
    pyRoundFrac (k * a) (k * b) = pyRoundFrac a b := by
  unfold pyRoundFrac
  rw [Int.mul_ediv_mul_of_pos a b hk]
  have h1 : 2 * (k * a - k * b * (a / b)) = k * (2 * (a - b * (a / b))) := by ring
  rw [h1]
  have h2 : (k * (2 * (a - b * (a / b))) < k * b) ↔ (2 * (a - b * (a / b)) < b) :=
    mul_lt_mul_left hk
  have h3 : (k * b < k * (2 * (a - b * (a / b)))) ↔ (b < 2 * (a - b * (a / b))) :=
    mul_lt_mul_left hk
  simp only [h2, h3]

theorem pyRoundFrac_one (a : ℤ) : pyRoundFrac a 1 = a := by
  unfold pyRoundFrac
  simp [Int.ediv_one]

theorem pyRoundFrac_mul_self (w b : ℤ) (hb : 0 < b) :
    pyRoundFrac (w * b) b = w := by
  have h : pyRoundFrac (b * w) (b * 1) = pyRoundFrac w 1 := pyRoundFrac_scale b w 1 hb
  rw [mul_comm w b]
  rw [mul_one] at h
  rw [h, pyRoundFrac_one]

/-- `pyRoundFrac a b` agrees with rounding the rational number `a / b`. -/
theorem pyRoundFrac_eq_pyRound (a b : ℤ) (hb : 0 < b) :
    pyRoundFrac a b = pyRound ((a : ℚ) / (b : ℚ)) := by
  set q : ℚ := (a : ℚ) / (b : ℚ) with hq
  have hb0 : (b : ℚ) ≠ 0 := Int.cast_ne_zero.mpr (ne_of_gt hb)
  have hnum : (q.num : ℚ) = q * q.den := by
    rw [Rat.mul_den_eq_num]
  have hab : (a : ℚ) = q * b := by
    rw [hq, div_mul_cancel₀ _ hb0]
  -- a * q.den = q.num * b, all integers
  have hcross : a * (q.den : ℤ) = q.num * b := by
    have : ((a * (q.den : ℤ) : ℤ) : ℚ) = ((q.num * b : ℤ) : ℚ) := by
      push_cast
      rw [hab, hnum]
      ring
    exact_mod_cast this
  -- obtain the positive scale factor between (a, b) and (q.num, q.den)
  obtain ⟨c, hc1, hc2⟩ :
      ∃ c : ℤ, a = c * q.num ∧ b = c * q.den := by
    rcases @Rat.exists_eq_mul_div_num_and_eq_mul_div_den a b
        (by exact_mod_cast ne_of_gt hb) with ⟨c, h1, h2⟩
    exact ⟨c, by rw [h1, hq], by rw [h2, hq]⟩
  have hdenpos : (0 : ℤ) < q.den := Int.natCast_pos.mpr q.pos
  have hcpos : 0 < c := by
    by_contra hle
    push_neg at hle
    have : b ≤ 0 := by
      calc b = c * q.den := hc2
        _ ≤ 0 := mul_nonpos_of_nonpos_of_nonneg hle (le_of_lt hdenpos)
    omega
  rw [hc1, hc2, pyRoundFrac_scale c q.num q.den hcpos]
  rfl

theorem pyRound_intCast (n : ℤ) : pyRound (n : ℚ) = n := by
  unfold pyRound
  rw [Rat.intCast_num, Rat.intCast_den]
  rw [Nat.cast_one, pyRoundFrac_one]

theorem pyRound_natCast (n : ℕ) : pyRound (n : ℚ) = n := by
  have h : ((n : ℤ) : ℚ) = (n : ℚ) := by push_cast; ring
  rw [← h, pyRound_intCast]

/-- Integer form of `pyRound (a/b) ≤ a/b + 1/2`, cleared of denominators. -/
theorem pyRoundFrac_le (a b : ℤ) (hb : 0 < b) :
    2 * b * pyRoundFrac a b ≤ 2 * a + b := by
  have hdiv : b * (a / b) + a % b = a := Int.ediv_add_emod a b
  have hr0 : 0 ≤ a % b := Int.emod_nonneg a (ne_of_gt hb)
  have hrb : a % b < b := Int.emod_lt_of_pos a hb
  unfold pyRoundFrac
  have hr : a - b * (a / b) = a % b := by omega
  rw [hr]
  by_cases h1 : 2 * (a % b) < b
  · simp only [h1, if_true]
    linarith
  · by_cases h2 : b < 2 * (a % b)
    · simp only [h1, h2, if_false, if_true]
      linarith
    · by_cases h3 : (a / b) % 2 = 0
      · simp only [h1, h2, h3, if_false, if_true]
        linarith
      · simp only [h1, h2, h3, if_false, if_true]
        linarith

/-! ### Column width computation of `format_table` (`cli.py` lines 276-288) -/

/-- Natural column widths, `cli.py` line 278:
`col_widths = tuple(max(len(cell) for cell in col) for col in columns)`.
Python `max` raises `ValueError` on an empty column. -/
def natural_widths (columns : List (List (List Char))) : Except PyErr (List ℕ) :=
  columns.mapM fun col =>
    match col with
    | [] => .error (.valueError "max() arg is an empty sequence")
    | c :: cs => .ok ((cs.map List.length).foldl max c.length)

/-- `available_width = terminal_width - padding * len(columns)` (line 283). -/
def availableWidth (terminal_width padding : ℤ) (n : ℕ) : ℤ :=
  terminal_width - padding * n

/-- `sum_widths = sum(w**n for w in col_widths)` with `n = 3` (line 286). -/
def sumCubes (ws : List ℕ) : ℕ :=
  (ws.map fun w => w ^ 3).sum

/-- `subtract = max([sum(col_widths) - available_width, 0])` (line 287). -/
def subtractAmount (terminal_width padding : ℤ) (ws : List ℕ) : ℤ :=
  max ((ws.sum : ℤ) - availableWidth terminal_width padding ws.length) 0

/-- One shrunk width, `round(w - subtract * w**n / sum_widths)` (line 288),
computed as the exact fraction `(w * C - S * w^3) / C` rounded half to
even, where `S` is `subtract` and `C` is `sum_widths`. -/
def shrunkWidth (S C : ℤ) (w : ℕ) : ℤ :=
  pyRoundFrac ((w : ℤ) * C - S * (w : ℤ) ^ 3) C

/-- The `if wrap:` branch of `format_table`, `cli.py` lines 280-288.
When `sum_widths` is zero and at least one column exists, the
per-element division raises `ZeroDivisionError`; no clamping of any
kind is applied to the rounded results. -/
def wrap_widths (terminal_width padding : ℤ) (ws : List ℕ) : Except PyErr (List ℤ) :=
  match ws with
  | [] => .ok []
  | _ :: _ =>
    if sumCubes ws = 0 then .error .zeroDivisionError
    else .ok (ws.map (shrunkWidth (subtractAmount terminal_width padding ws) (sumCubes ws)))

/-- `shrunkWidth` is Python's `round(w - subtract * w**3 / sum_widths)`
on the exact rational value. -/
theorem shrunkWidth_eq_pyRound (S C : ℤ) (w : ℕ) (hC : 0 < C) :
    shrunkWidth S C w = pyRound ((w : ℚ) - (S : ℚ) * (w : ℚ) ^ 3 / (C : ℚ)) := by
  unfold shrunkWidth
  rw [pyRoundFrac_eq_pyRound _ _ hC]
  have hC0 : (C : ℚ) ≠ 0 := Int.cast_ne_zero.mpr (ne_of_gt hC)
  apply congrArg pyRound
  push_cast
  field_simp

example : wrap_widths 2 2 [10] = .ok [0] := by decide
example : wrap_widths 20 2 [5, 2] = .ok [5, 2] := by decide

/-! ### Claim C1: the final-width formula -/

/-- The final column widths exactly as claim C1 states them: natural
widths when they fit, otherwise the cubic-weighted shrink formula
rounded to nearest, clamped so that no width drops below 1. -/
def c1_claim_widths (terminal_width padding : ℤ) (ws : List ℕ) : List ℤ :=
  if (ws.sum : ℤ) ≤ availableWidth terminal_width padding ws.length then
    ws.map fun (w : ℕ) => (w : ℤ)
  else
    ws.map fun (w : ℕ) =>
      max 1 (pyRound ((w : ℚ) -
        (((ws.sum : ℤ) : ℚ) - ((availableWidth terminal_width padding ws.length : ℤ) : ℚ))
          * (w : ℚ) ^ 3 / (((sumCubes ws : ℤ)) : ℚ)))

/-- The amended final-width formula: as claim C1, but with no clamping
(the code never clamps; rounded widths of 0 or below are produced). -/
def c1_amended_widths (terminal_width padding : ℤ) (ws : List ℕ) : List ℤ :=
  if (ws.sum : ℤ) ≤ availableWidth terminal_width padding ws.length then
    ws.map fun (w : ℕ) => (w : ℤ)
  else
    ws.map fun (w : ℕ) =>
      pyRound ((w : ℚ) -
        (((ws.sum : ℤ) : ℚ) - ((availableWidth terminal_width padding ws.length : ℤ) : ℚ))
          * (w : ℚ) ^ 3 / (((sumCubes ws : ℤ)) : ℚ))

theorem sumCubes_ne_zero_of_cons {w : ℕ} {t : List ℕ} (h : sumCubes (w :: t) ≠ 0) :
    0 < (sumCubes (w :: t) : ℤ) := by
  have : 0 < sumCubes (w :: t) := Nat.pos_of_ne_zero h
  exact_mod_cast this

/-- C1, amended: with some natural width positive (so that the division
is defined), the wrapped widths are exactly the unclamped rounded
cubic-shrink formula; when everything fits they are the natural widths. -/
theorem c1_final_widths_amended (terminal_width padding : ℤ) (ws : List ℕ)
    (h : sumCubes ws ≠ 0) :
    wrap_widths terminal_width padding ws
      = .ok (c1_amended_widths terminal_width padding ws) := by
  match ws with
  | [] => simp [sumCubes] at h
  | w :: t =>
    simp only [wrap_widths]
    rw [if_neg h]
    have hC : 0 < (sumCubes (w :: t) : ℤ) := sumCubes_ne_zero_of_cons h
    unfold c1_amended_widths
    by_cases hle :
        (((w :: t).sum : ℤ)) ≤ availableWidth terminal_width padding (w :: t).length
    · rw [if_pos hle]
      have hS : subtractAmount terminal_width padding (w :: t) = 0 := by
        unfold subtractAmount
        exact max_eq_right (sub_nonpos.mpr hle)
      congr 1
      apply List.map_congr_left
      intro a _
      rw [hS]
      unfold shrunkWidth
      have : (a : ℤ) * (sumCubes (w :: t) : ℤ) - 0 * (a : ℤ) ^ 3
          = (a : ℤ) * (sumCubes (w :: t) : ℤ) := by ring
      rw [this, pyRoundFrac_mul_self _ _ hC]
    · rw [if_neg hle]
      push_neg at hle
      have hS : subtractAmount terminal_width padding (w :: t)
          = ((w :: t).sum : ℤ) - availableWidth terminal_width padding (w :: t).length := by
        unfold subtractAmount
        exact max_eq_left (le_of_lt (sub_pos.mpr hle))
      congr 1
      apply List.map_congr_left
      intro a _
      rw [hS, shrunkWidth_eq_pyRound _ _ _ hC]
      apply congrArg pyRound
      rw [Int.cast_sub]

/-- Witness for `c1_final_widths_amended` at a concrete input. -/
theorem c1_witness :
    sumCubes [5, 2] ≠ 0 ∧
      wrap_widths 20 2 [5, 2] = .ok (c1_amended_widths 20 2 [5, 2]) :=
  ⟨by decide, c1_final_widths_amended 20 2 [5, 2] (by decide)⟩

/-- Counterexample to claim C1 as stated: a single column of natural
width 10 at terminal width 2 and padding 2 gets final width 0, not the
clamped 1 the claim requires. -/
theorem c1_counterexample :
    wrap_widths 2 2 [10] = .ok [0] ∧
      c1_claim_widths 2 2 [10] = [1] ∧
      ((0 : ℤ) :: []) ≠ ((1 : ℤ) :: []) := by
  refine ⟨by decide, ?_, by decide⟩
  unfold c1_claim_widths
  rw [if_neg (by decide)]
  have harg : ((10 : ℕ) : ℚ) -
      (((([10] : List ℕ).sum : ℤ) : ℚ) - ((availableWidth 2 2 ([10] : List ℕ).length : ℤ) : ℚ))
        * ((10 : ℕ) : ℚ) ^ 3 / (((sumCubes [10] : ℤ)) : ℚ) = ((0 : ℤ) : ℚ) := by
    have hav : availableWidth 2 2 ([10] : List ℕ).length = 0 := by decide
    have hsc : sumCubes [10] = 1000 := by decide
    have hsum : ([10] : List ℕ).sum = 10 := by decide
    rw [hav, hsc, hsum]
    norm_num
  simp only [List.map]
  rw [harg, pyRound_intCast]
  decide

/-! ### Claim C2: width conservation -/

theorem sumCubes_castInt (ws : List ℕ) :
    ((sumCubes ws : ℕ) : ℤ) = (ws.map fun (w : ℕ) => (w : ℤ) ^ 3).sum := by
  induction ws with
  | nil => simp [sumCubes]
  | cons w t ih =>
    unfold sumCubes at ih ⊢
    simp only [List.map_cons, List.sum_cons]
    push_cast
    rw [← ih]
    push_cast
    ring

theorem mul_list_sum_int (c : ℤ) (l : List ℤ) :
    c * l.sum = (l.map fun x => c * x).sum := by
  induction l with
  | nil => simp
  | cons x t ih => simp [List.sum_cons, mul_add, ih]

/-- Summed form of `pyRoundFrac_le` over all shrunk widths. -/
theorem sum_shrunk_le (S C : ℤ) (hC : 0 < C) (ws : List ℕ) :
    2 * C * ((ws.map (shrunkWidth S C)).sum)
      ≤ 2 * (C * (ws.sum : ℤ) - S * (ws.map fun (w : ℕ) => (w : ℤ) ^ 3).sum)
        + (ws.length : ℤ) * C := by
  induction ws with
  | nil => simp
  | cons w t ih =>
    simp only [List.map_cons, List.sum_cons, List.length_cons]
    have hhead : 2 * C * shrunkWidth S C w
        ≤ 2 * ((w : ℤ) * C - S * (w : ℤ) ^ 3) + C :=
      pyRoundFrac_le ((w : ℤ) * C - S * (w : ℤ) ^ 3) C hC
    push_cast
    push_cast at ih
    linarith [hhead, ih]

/-- Claim C2: for any wrapped table the sum of final column widths plus
`padding` per column exceeds the terminal width by at most 1 per column. -/
theorem c2_width_conservation (terminal_width padding : ℤ) (ws : List ℕ)
    (l : List ℤ) (hne : ws ≠ [])
    (h : wrap_widths terminal_width padding ws = .ok l) :
    l.sum + padding * ws.length ≤ terminal_width + ws.length := by
  match ws, hne with
  | w :: t, _ =>
    simp only [wrap_widths] at h
    by_cases hz : sumCubes (w :: t) = 0
    · rw [if_pos hz] at h
      exact absurd h (fun hc => Except.noConfusion hc)
    · rw [if_neg hz] at h
      have hl : l = (w :: t).map
          (shrunkWidth (subtractAmount terminal_width padding (w :: t))
            (sumCubes (w :: t))) := by
        injection h with h'
        exact h'.symm
      have hC : 0 < (sumCubes (w :: t) : ℤ) := sumCubes_ne_zero_of_cons hz
      set S := subtractAmount terminal_width padding (w :: t) with hSdef
      set C := ((sumCubes (w :: t) : ℕ) : ℤ) with hCdef
      have hsum := sum_shrunk_le S C hC (w :: t)
      have hcubes : (( (w :: t).map fun (x : ℕ) => (x : ℤ) ^ 3).sum) = C := by
        rw [hCdef, sumCubes_castInt]
      rw [hcubes] at hsum
      -- S ≥ sum - available
      have hSge : ((w :: t).sum : ℤ)
          - availableWidth terminal_width padding (w :: t).length ≤ S := by
        rw [hSdef]
        unfold subtractAmount
        exact le_max_left _ _
      have hkey : 2 * C * l.sum
          ≤ 2 * C * (availableWidth terminal_width padding (w :: t).length)
            + ((w :: t).length : ℤ) * C := by
        rw [hl]
        calc 2 * C * (((w :: t).map (shrunkWidth S C)).sum)
            ≤ 2 * (C * ((w :: t).sum : ℤ) - S * C) + ((w :: t).length : ℤ) * C := hsum
          _ ≤ 2 * C * (availableWidth terminal_width padding (w :: t).length)
              + ((w :: t).length : ℤ) * C := by nlinarith [hSge, hC]
      have hdiv : 2 * l.sum ≤ 2 * (availableWidth terminal_width padding (w :: t).length)
          + ((w :: t).length : ℤ) := by
        nlinarith [hkey, hC]
      unfold availableWidth at hdiv
      have hn : (0 : ℤ) ≤ ((w :: t).length : ℤ) := by positivity
      linarith

/-- Witness for `c2_width_conservation` at a concrete input. -/
theorem c2_witness :
    wrap_widths 20 2 [5, 2] = .ok [5, 2] ∧
      ([5, 2] : List ℤ).sum + 2 * (([5, 2] : List ℕ).length : ℤ)
        ≤ 20 + (([5, 2] : List ℕ).length : ℤ) :=
  ⟨by decide, c2_width_conservation 20 2 [5, 2] [5, 2] (by decide) (by decide)⟩

/-! ### `textwrap.wrap` (Python standard library, used by `cli.py` lines 294-295)

Model of `textwrap.wrap(cell, width=width)` with the default options
(`expand_tabs=True`, `replace_whitespace=True`, `drop_whitespace=True`,
`break_long_words=True`, no indents, `max_lines=None`).  Scope: the
default `break_on_hyphens=True` chunking additionally splits after the
internal hyphens of hyphenated words, so `textwrap` may place the
pieces of a hyphenated word (such as `aa-` and `bb` of `aa-bb`) on
different lines; this model chunks only at whitespace, which coincides
with the default chunking precisely on text containing no `-`
character.  Accordingly, the theorem below that quantifies over texts
carries the hypothesis that the text is hyphen-free, and every
concrete input used here is hyphen-free; on that domain the model
matches `textwrap` exactly. -/

/-- The ASCII whitespace characters of Python's `textwrap`
(`' \t\n\x0b\x0c\r'`), also those of `str.strip()` on ASCII text. -/
def wsChar (c : Char) : Bool :=
  c == ' ' || c == '\t' || c == '\n' || c == '\x0B' || c == '\x0C' || c == '\r'

/-- `str.expandtabs(8)`: replace each tab with spaces up to the next
multiple of 8, with the column reset by newline and carriage return. -/
def expandTabsGo (col : ℕ) : List Char → List Char
  | [] => []
  | c :: rest =>
    if c = '\t' then
      List.replicate (8 - col % 8) ' ' ++ expandTabsGo (col + (8 - col % 8)) rest
    else if c = '\n' || c = '\r' then c :: expandTabsGo 0 rest
    else c :: expandTabsGo (col + 1) rest

/-- `TextWrapper._munge_whitespace`: expand tabs, then replace each
whitespace character with a single space. -/
def munge (s : List Char) : List Char :=
  (expandTabsGo 0 s).map fun c => if wsChar c then ' ' else c

/-- Split a string into maximal runs of whitespace and non-whitespace
characters: the chunks of `TextWrapper._split` for hyphen-free input.
(The default `break_on_hyphens=True` additionally splits after the
internal hyphens of hyphenated words; on text without `-` the two
chunkings coincide, and all uses below restrict to that domain.) -/
def splitRuns : List Char → List (List Char)
  | [] => []
  | c :: rest =>
    match splitRuns rest with
    | [] => [[c]]
    | [] :: rs => [c] :: [] :: rs
    | (d :: run) :: rs =>
      if wsChar c = wsChar d then (c :: d :: run) :: rs
      else [c] :: (d :: run) :: rs

/-- `chunk.strip() == ''`: the chunk is entirely whitespace. -/
def chunkWS (c : List Char) : Bool := c.all wsChar

/-- Fuel measure for the wrapping loop: total chunk length plus one per
chunk; it strictly decreases at every iteration of the outer loop. -/
def chunksMeasure (chunks : List (List Char)) : ℕ :=
  (chunks.map fun c => c.length + 1).sum

/-- The inner fitting loop of `TextWrapper._wrap_chunks`: pop chunks
onto the current line while they fit.  Returns the popped prefix, the
resulting line length, and the remaining chunks. -/
def fitLoop (width : ℕ) : ℕ → List (List Char) → List (List Char) × ℕ × List (List Char)
  | curLen, [] => ([], curLen, [])
  | curLen, c :: rest =>
    if curLen + c.length ≤ width then
      match fitLoop width (curLen + c.length) rest with
      | (line, l, r) => (c :: line, l, r)
    else ([], curLen, c :: rest)

/-- `if self.drop_whitespace and cur_line and cur_line[-1].strip() == '':
del cur_line[-1]` -/
def dropTrailingWS (cur : List (List Char)) : List (List Char) :=
  if chunkWS (cur.getLastD ['x']) then cur.dropLast else cur

/-- One outer iteration of `TextWrapper._wrap_chunks`: drop a leading
whitespace chunk (if any line was already emitted), fit chunks onto the
line, split an over-long head chunk (`_handle_long_word` with
`break_long_words=True`), drop trailing whitespace, and emit the line
if non-empty.  Returns the updated line list and the remaining
chunks. -/
def wrapStep (width : ℕ) (lines : List (List Char)) (c : List Char)
    (rest : List (List Char)) : List (List Char) × List (List Char) :=
  match fitLoop width 0 (if chunkWS c && !lines.isEmpty then rest else c :: rest) with
  | (cur, curLen, rest1) =>
    match
      (match rest1 with
       | [] => (cur, ([] : List (List Char)))
       | d :: rest2 =>
         if width < d.length then
           (cur ++ [d.take (if width < 1 then 1 else width - curLen)],
            d.drop (if width < 1 then 1 else width - curLen) :: rest2)
         else (cur, d :: rest2)) with
    | (cur2, rest3) =>
      ((if (dropTrailingWS cur2).isEmpty then lines
        else lines ++ [(dropTrailingWS cur2).flatten]), rest3)

/-- The outer loop of `TextWrapper._wrap_chunks`, iterating `wrapStep`.
`fuel` bounds the iteration count; `pyWrap` supplies enough fuel for
the loop to run to completion (`chunksMeasure` strictly decreases at
every step). -/
def wrapChunksGo (width : ℕ) : ℕ → List (List Char) → List (List Char) → List (List Char)
  | 0, lines, _ => lines
  | _ + 1, lines, [] => lines
  | fuel + 1, lines, c :: rest =>
    match wrapStep width lines c rest with
    | (lines2, rest3) => wrapChunksGo width fuel lines2 rest3

/-- `textwrap.wrap(text, width=width)` with default options, faithful
on hyphen-free text (the default `break_on_hyphens` chunking is not
modelled, see the section comment; the theorem quantifying over texts
restricts to text without `-`): raises `ValueError` for `width <= 0`,
otherwise splits the munged text into chunks and runs the wrapping
loop. -/
def pyWrap (width : ℤ) (text : List Char) : Except PyErr (List (List Char)) :=
  if width ≤ 0 then .error (.valueError "invalid width (must be greater than 0)")
  else
    .ok (wrapChunksGo width.toNat (chunksMeasure (splitRuns (munge text)) + 1) []
      (splitRuns (munge text)))

example : pyWrap 3 "aaaa".data = .ok ["aaa".data, "a".data] := by decide
example : pyWrap 5 "alice".data = .ok ["alice".data] := by decide
example : pyWrap 8 "xxx aaa bbb".data = .ok ["xxx aaa".data, "bbb".data] := by decide
example : pyWrap 3 "".data = .ok [] := by decide
example : pyWrap 3 "a      b".data = .ok ["a".data, "b".data] := by decide
example : pyWrap 3 "  ab".data = .ok ["ab".data] := by decide
example : pyWrap 10 "  ab".data = .ok ["  ab".data] := by decide
example : pyWrap 0 "x".data
    = .error (.valueError "invalid width (must be greater than 0)") := by decide

example : pyWrap 1 "a b c".data = .ok ["a".data, "b".data, "c".data] := by decide
example : pyWrap 4 "a bb ccc dddd eeeee".data
    = .ok ["a bb".data, "ccc".data, "dddd".data, "eeee".data, "e".data] := by decide
example : pyWrap 5 "  leading and  trailing   ".data
    = .ok ["  lea".data, "ding".data, "and  ".data, "trail".data, "ing".data] := by
  decide
example : pyWrap 1 "  ".data = .ok [] := by decide
example : pyWrap 2 "    ".data = .ok [] := by decide
example : pyWrap 3 "aa aa  ".data = .ok ["aa".data, "aa".data] := by decide

/-! ### `format_table` (`cli.py` lines 232-325) -/

/-- `_transpose(ll) = list(map(list, zip(*ll)))` (`cli.py` line 228):
`zip` truncates to the shortest inner list, and `zip()` of no lists is
empty.  Both outer and inner lists of the result are freshly built. -/
def pyTranspose {α : Type} [Inhabited α] (ll : List (List α)) : List (List α) :=
  match ll with
  | [] => []
  | l :: ls =>
    (List.range (((l :: ls).map List.length).foldl min l.length)).map
      fun i => (l :: ls).map fun row => row.getD i default

example : pyTranspose [["alice", "bob"], ["30", "7"]]
    = [["alice", "30"], ["bob", "7"]] := by decide
example : pyTranspose [["a", "b"], ["c"]] = [["a", "c"]] := by decide
example : pyTranspose ([[]] : List (List ℕ)) = [] := by decide

/-- The header-insertion loop, `cli.py` lines 260-262:
`for i, col in enumerate(columns): col.insert(0, headers[i])`.
`headers[i]` raises `IndexError` once the headers run out. -/
def insertHeadersChecked :
    List (List Char) → List (List (List Char)) → Except PyErr (List (List (List Char)))
  | _, [] => .ok []
  | [], _ :: _ => .error .indexError
  | h :: hs, col :: cols => do
      let r ← insertHeadersChecked hs cols
      .ok ((h :: col) :: r)

/-- The same loop's effect on the caller's column lists when it stops
early with `IndexError`: columns visited before the error have gained
their header, later columns are untouched. -/
def insertHeadersGreedy :
    List (List Char) → List (List (List Char)) → List (List (List Char))
  | _, [] => []
  | [], cols => cols
  | h :: hs, col :: cols => (h :: col) :: insertHeadersGreedy hs cols

/-- Resolution of the `alignment` argument, `cli.py` lines 269-274:
falsy values (`None`, `0`, `[]`) default to all-left, an `int` is
replicated per column, and a non-empty list must match the column
count. -/
def resolveAlignment (alignment : Option (ℤ ⊕ List ℤ)) (n : ℕ) :
    Except PyErr (List ℤ) :=
  match alignment with
  | none => .ok (List.replicate n LEFT)
  | some (.inl a) => .ok (List.replicate n a)
  | some (.inr []) => .ok (List.replicate n LEFT)
  | some (.inr (a :: rest)) =>
    if (a :: rest).length = n then .ok (a :: rest)
    else .error (.valueError "Must give an alignment for every column.")

/-- `str.ljust`. -/
def pyLjust (s : List Char) (w : ℤ) : List Char :=
  s ++ List.replicate (w.toNat - s.length) ' '

/-- `str.rjust`. -/
def pyRjust (s : List Char) (w : ℤ) : List Char :=
  List.replicate (w.toNat - s.length) ' ' ++ s

/-- `str.center`: CPython puts `marg // 2 + (marg & width & 1)` of the
margin on the left. -/
def pyCenter (s : List Char) (w : ℤ) : List Char :=
  if w ≤ (s.length : ℤ) then s
  else
    List.replicate ((w - s.length).toNat / 2 + ((w - s.length).toNat &&& w.toNat &&& 1)) ' '
      ++ s ++
      List.replicate ((w - s.length).toNat
        - ((w - s.length).toNat / 2 + ((w - s.length).toNat &&& w.toNat &&& 1))) ' '

/-- One aligned cell line, `cli.py` lines 312-319: dispatch on the
alignment tag in source order (`LEFT`, `RIGHT`, `CENTER`), any other
tag raises `ValueError`. -/
def justifyCell (align : ℤ) (s : List Char) (w : ℤ) : Except PyErr (List Char) :=
  if align = LEFT then .ok (pyLjust s w)
  else if align = RIGHT then .ok (pyRjust s w)
  else if align = CENTER then .ok (pyCenter s w)
  else .error (.valueError "Alignment must be LEFT = 0, CENTER = 1, RIGHT = 2")

/-- One printed line of one wrapped row, `cli.py` lines 309-321: each
column contributes its `i`-th wrapped line (empty once exhausted,
line 306) justified to the column width, followed by `padding` spaces.
`zip` truncates if the width or alignment lists run short. -/
def buildLine (padding : ℤ) (i : ℕ) :
    List (List (List Char)) → List ℤ → List ℤ → Except PyErr (List Char)
  | [], _, _ => .ok []
  | _ :: _, [], _ => .ok []
  | _ :: _, _ :: _, [] => .ok []
  | cell :: cells, w :: ws, a :: aligns => do
      let piece ← justifyCell a (cell.getD i []) w
      let rest ← buildLine padding i cells ws aligns
      .ok (piece ++ List.replicate padding.toNat ' ' ++ rest)

/-- All printed lines of one wrapped row, `cli.py` lines 303-323: the
row's height is the maximum wrapped-line count of its cells (Python
`max`, raising on an empty row). -/
def renderRow (padding : ℤ) (widths aligns : List ℤ)
    (row : List (List (List Char))) : Except PyErr (List (List Char)) :=
  match row with
  | [] => .error (.valueError "max() arg is an empty sequence")
  | c :: cs =>
    (List.range ((cs.map List.length).foldl max c.length)).mapM fun i =>
      buildLine padding i row widths aligns

/-- The column lists actually laid out: the caller's `columns` when
truthy, otherwise the fresh transpose of `rows` (`cli.py`
lines 254-258). -/
def effectiveColumns (rows columns : Option (List (List (List Char)))) :
    List (List (List Char)) :=
  if optTruthy columns then columns.getD [] else pyTranspose (rows.getD [])

/-- `format_table(rows, columns, headers, padding, alignment, wrap)`
(`cli.py` lines 232-325), with the terminal width passed explicitly.
Returns the formatted multi-line string (`'\n'.join(lines)`, no
trailing newline) or the Python exception raised. -/
def format_table (terminal_width : ℤ)
    (rows columns : Option (List (List (List Char))))
    (headers : Option (List (List Char)))
    (padding : ℤ) (alignment : Option (ℤ ⊕ List ℤ)) (wrap : Bool) :
    Except PyErr (List Char) :=
  if optTruthy rows && optTruthy columns then
    .error (.valueError "Cannot give both rows and columns as input.")
  else if !optTruthy rows && !optTruthy columns then
    .error (.valueError "Must give either rows or columns as input.")
  else do
    let cols0 := effectiveColumns rows columns
    let cols1 ←
      if optTruthy headers then insertHeadersChecked (headers.getD []) cols0
      else .ok cols0
    if cols1.all List.isEmpty then .ok [] else do
      let aligns ← resolveAlignment alignment cols1.length
      let natWs ← natural_widths cols1
      let widths ←
        if wrap then wrap_widths terminal_width padding natWs
        else .ok (natWs.map fun (w : ℕ) => (w : ℤ))
      let wrapped ← (cols1.zip widths).mapM fun p => p.1.mapM fun cell => pyWrap p.2 cell
      let lineGroups ← (pyTranspose wrapped).mapM (renderRow padding widths aligns)
      .ok (List.intercalate ['\n'] lineGroups.flatten)

/-- The caller's `columns` argument after the call, modelling the
in-place `col.insert(0, headers[i])` mutation: unchanged when the call
fails on the both-truthy check or when `columns`/`headers` is falsy,
otherwise each list has gained its header (partially, if the headers
run out and `IndexError` is raised mid-loop).  `rows` is never mutated:
`_transpose` builds fresh outer and inner lists. -/
def caller_columns_after (rows columns : Option (List (List (List Char))))
    (headers : Option (List (List Char))) : Option (List (List (List Char))) :=
  match columns with
  | none => none
  | some cs =>
    if optTruthy rows && optTruthy (some cs) then some cs
    else if optTruthy (some cs) && optTruthy headers then
      some (insertHeadersGreedy (headers.getD []) cs)
    else some cs

example : format_table 20 none (some [["alice".data, "bob".data], ["30".data, "7".data]])
    none 2 none true = .ok "alice  30  \nbob    7   ".data := by decide

/-! ### Claim C5: the two-column scenario -/

theorem c5_wrap_widths (W : ℤ) (hW : 11 ≤ W) :
    wrap_widths W 2 [5, 2] = .ok [5, 2] := by
  simp only [wrap_widths]
  rw [if_neg (by decide)]
  have hS : subtractAmount W 2 [5, 2] = 0 := by
    unfold subtractAmount availableWidth
    apply max_eq_right
    have h1 : (([5, 2] : List ℕ).sum : ℤ) = 7 := by decide
    have h2 : (([5, 2] : List ℕ).length : ℤ) = 2 := by decide
    rw [h1, h2]
    linarith
  rw [hS]
  decide

/-- The tail of `format_table` after the column widths are known, at
the concrete arguments of the C5 scenario. -/
def c5_post (widths : List ℤ) : Except PyErr (List Char) := do
  let wrapped ← ([["alice".data, "bob".data], ["30".data, "7".data]].zip widths).mapM
    fun p => p.1.mapM fun cell => pyWrap p.2 cell
  let lineGroups ← (pyTranspose wrapped).mapM (renderRow 2 widths (List.replicate 2 LEFT))
  .ok (List.intercalate ['\n'] lineGroups.flatten)

/-- C5, amended: with columns `[["alice","bob"],["30","7"]]`, no
headers, padding 2, default alignment and any terminal wide enough that
no shrinking occurs, `format_table` returns exactly
`"alice  30  \nbob    7   "`: two padding spaces after each column and
a newline separator with no trailing newline. -/
theorem c5_scenario_amended (W : ℤ) (hW : 11 ≤ W) :
    format_table W none (some [["alice".data, "bob".data], ["30".data, "7".data]])
      none 2 none true = .ok "alice  30  \nbob    7   ".data := by
  calc format_table W none (some [["alice".data, "bob".data], ["30".data, "7".data]])
        none 2 none true
      = (wrap_widths W 2 [5, 2]).bind c5_post := rfl
    _ = c5_post [5, 2] := by rw [c5_wrap_widths W hW]; rfl
    _ = .ok "alice  30  \nbob    7   ".data := by decide

/-- Witness for `c5_scenario_amended` at terminal width 20. -/
theorem c5_witness :
    format_table 20 none (some [["alice".data, "bob".data], ["30".data, "7".data]])
      none 2 none true = .ok "alice  30  \nbob    7   ".data :=
  c5_scenario_amended 20 (by decide)

/-- Counterexample to claim C5 as stated: at terminal width 20 (wide
enough that no shrinking occurs) the returned text is not
`"alice 30 \n" + "bob   7  \n"` (that string has single-space padding
and a trailing newline). -/
theorem c5_counterexample :
    format_table 20 none (some [["alice".data, "bob".data], ["30".data, "7".data]])
      none 2 none true ≠ .ok ("alice 30 \n".data ++ "bob   7  \n".data) := by
  decide

/-! ### Claim C3: which inputs raise `ValueError` -/

theorem except_bind_error {ε α β : Type} (e : ε) (f : α → Except ε β) :
    (Except.error e : Except ε α) >>= f = .error e := rfl

theorem except_bind_ok {ε α β : Type} (a : α) (f : α → Except ε β) :
    (Except.ok a : Except ε α) >>= f = f a := rfl

theorem c3_both (terminal_width : ℤ) (rows columns : Option (List (List (List Char))))
    (headers : Option (List (List Char))) (padding : ℤ)
    (alignment : Option (ℤ ⊕ List ℤ)) (wrap : Bool)
    (h1 : optTruthy rows = true) (h2 : optTruthy columns = true) :
    format_table terminal_width rows columns headers padding alignment wrap
      = .error (.valueError "Cannot give both rows and columns as input.") := by
  unfold format_table
  rw [if_pos (by rw [h1, h2]; rfl)]

theorem c3_neither (terminal_width : ℤ) (rows columns : Option (List (List (List Char))))
    (headers : Option (List (List Char))) (padding : ℤ)
    (alignment : Option (ℤ ⊕ List ℤ)) (wrap : Bool)
    (h1 : optTruthy rows = false) (h2 : optTruthy columns = false) :
    format_table terminal_width rows columns headers padding alignment wrap
      = .error (.valueError "Must give either rows or columns as input.") := by
  unfold format_table
  rw [if_neg (by rw [h1, h2]; simp)]
  rw [if_pos (by rw [h1, h2]; rfl)]

theorem c3_empty_early_return (terminal_width : ℤ)
    (c : List (List Char)) (cs : List (List (List Char)))
    (padding : ℤ) (alignment : Option (ℤ ⊕ List ℤ)) (wrap : Bool)
    (hall : ((c :: cs).all List.isEmpty) = true) :
    format_table terminal_width none (some (c :: cs)) none padding alignment wrap
      = .ok [] := by
  unfold format_table
  rw [if_neg (by simp [optTruthy])]
  rw [if_neg (by simp [optTruthy])]
  simp only [optTruthy, Bool.false_eq_true, if_false, except_bind_ok,
    effectiveColumns, Option.getD_some, if_true, hall]

theorem c3_alignment_mismatch (terminal_width : ℤ)
    (c : List (List Char)) (cs : List (List (List Char)))
    (a : ℤ) (as' : List ℤ)
    (padding : ℤ) (wrap : Bool)
    (hne : ((c :: cs).all List.isEmpty) = false)
    (hlen : (a :: as').length ≠ (c :: cs).length) :
    format_table terminal_width none (some (c :: cs)) none padding
      (some (.inr (a :: as'))) wrap
      = .error (.valueError "Must give an alignment for every column.") := by
  unfold format_table
  rw [if_neg (by simp [optTruthy])]
  rw [if_neg (by simp [optTruthy])]
  simp only [optTruthy, Bool.false_eq_true, if_false, except_bind_ok,
    effectiveColumns, Option.getD_some, if_true, hne]
  simp only [resolveAlignment, if_neg hlen, except_bind_error]

theorem c3_unknown_tag (a : ℤ)
    (h0 : a ≠ LEFT) (h1 : a ≠ CENTER) (h2 : a ≠ RIGHT) :
    format_table 80 none (some [[['x']]]) none 2 (some (.inl a)) true
      = .error (.valueError "Alignment must be LEFT = 0, CENTER = 1, RIGHT = 2") := by
  have hj : justifyCell a ['x'] 1
      = .error (.valueError "Alignment must be LEFT = 0, CENTER = 1, RIGHT = 2") := by
    unfold justifyCell
    rw [if_neg h0, if_neg h2, if_neg h1]
  have hrender : renderRow 2 [1] (List.replicate 1 a) [[['x']]]
      = .error (.valueError "Alignment must be LEFT = 0, CENTER = 1, RIGHT = 2") := by
    simp only [renderRow]
    norm_num [List.range_succ, List.mapM.loop, buildLine, hj,
      except_bind_error, except_bind_ok]
  calc format_table 80 none (some [[['x']]]) none 2 (some (.inl a)) true
      = ((renderRow 2 [1] (List.replicate 1 a) [[['x']]]).bind
          (fun g => .ok [g])).bind
          (fun lineGroups => .ok (List.intercalate ['\n'] lineGroups.flatten)) := by
        rfl
    _ = .error (.valueError "Alignment must be LEFT = 0, CENTER = 1, RIGHT = 2") := by
        rw [hrender]
        rfl

/-- C3, amended: `format_table` raises `ValueError` for both-truthy or
neither-truthy data arguments; when the table is non-empty it raises
`ValueError` for a non-empty alignment list of the wrong length and for
an unknown alignment tag during rendering; but when every column is
empty after header insertion it returns the empty string before
validating alignment, so a mismatched alignment list is then silently
accepted (and other malformed inputs raise errors other than
`ValueError`, such as `ZeroDivisionError` or `IndexError`). -/
theorem c3_value_errors_amended :
    (∀ (terminal_width : ℤ) (rows columns : Option (List (List (List Char))))
        (headers : Option (List (List Char))) (padding : ℤ)
        (alignment : Option (ℤ ⊕ List ℤ)) (wrap : Bool),
      optTruthy rows = true → optTruthy columns = true →
      format_table terminal_width rows columns headers padding alignment wrap
        = .error (.valueError "Cannot give both rows and columns as input.")) ∧
    (∀ (terminal_width : ℤ) (rows columns : Option (List (List (List Char))))
        (headers : Option (List (List Char))) (padding : ℤ)
        (alignment : Option (ℤ ⊕ List ℤ)) (wrap : Bool),
      optTruthy rows = false → optTruthy columns = false →
      format_table terminal_width rows columns headers padding alignment wrap
        = .error (.valueError "Must give either rows or columns as input.")) ∧
    (∀ (terminal_width : ℤ) (c : List (List Char)) (cs : List (List (List Char)))
        (padding : ℤ) (alignment : Option (ℤ ⊕ List ℤ)) (wrap : Bool),
      ((c :: cs).all List.isEmpty) = true →
      format_table terminal_width none (some (c :: cs)) none padding alignment wrap
        = .ok []) ∧
    (∀ (terminal_width : ℤ) (c : List (List Char)) (cs : List (List (List Char)))
        (a : ℤ) (as' : List ℤ) (padding : ℤ) (wrap : Bool),
      ((c :: cs).all List.isEmpty) = false →
      (a :: as').length ≠ (c :: cs).length →
      format_table terminal_width none (some (c :: cs)) none padding
          (some (.inr (a :: as'))) wrap
        = .error (.valueError "Must give an alignment for every column.")) ∧
    (∀ a : ℤ, a ≠ LEFT → a ≠ CENTER → a ≠ RIGHT →
      format_table 80 none (some [[['x']]]) none 2 (some (.inl a)) true
        = .error (.valueError "Alignment must be LEFT = 0, CENTER = 1, RIGHT = 2")) :=
  ⟨c3_both, c3_neither, c3_empty_early_return, c3_alignment_mismatch, c3_unknown_tag⟩

/-- Witness for `c3_value_errors_amended` at concrete inputs. -/
theorem c3_witness :
    format_table 80 (some [[['a']]]) (some [[['b']]]) none 2 none true
        = .error (.valueError "Cannot give both rows and columns as input.") ∧
    format_table 80 none (some []) none 2 none true
        = .error (.valueError "Must give either rows or columns as input.") ∧
    format_table 80 none (some [[], []]) none 2 (some (.inr [0])) true = .ok [] ∧
    format_table 80 none (some [[['x']]]) none 2 (some (.inr [0, 0])) true
        = .error (.valueError "Must give an alignment for every column.") ∧
    format_table 80 none (some [[['x']]]) none 2 (some (.inl 3)) true
        = .error (.valueError "Alignment must be LEFT = 0, CENTER = 1, RIGHT = 2") :=
  ⟨c3_value_errors_amended.1 80 (some [[['a']]]) (some [[['b']]]) none 2 none true
      (by decide) (by decide),
   c3_value_errors_amended.2.1 80 none (some []) none 2 none true
      (by decide) (by decide),
   c3_value_errors_amended.2.2.1 80 [] [[]] 2 (some (.inr [0])) true (by decide),
   c3_value_errors_amended.2.2.2.1 80 [['x']] [] 0 [0] 2 true (by decide) (by decide),
   c3_value_errors_amended.2.2.2.2 3 (by decide) (by decide) (by decide)⟩

/-- Counterexample to claim C3 as stated: with all-empty columns and an
explicit alignment list of length 1 against 2 columns, `format_table`
returns the empty string normally instead of raising `ValueError`. -/
theorem c3_counterexample :
    format_table 80 none (some [[], []]) none 2 (some (.inr [0])) true = .ok [] ∧
    (Except.ok [] : Except PyErr (List Char))
      ≠ .error (.valueError "Must give an alignment for every column.") := by
  exact ⟨by decide, by decide⟩

/-! ### Claim C10: in-place header insertion -/

theorem insertHeadersGreedy_eq_zipWith (hdrs : List (List Char))
    (cs : List (List (List Char))) (h : cs.length ≤ hdrs.length) :
    insertHeadersGreedy hdrs cs = List.zipWith (fun h c => h :: c) hdrs cs := by
  induction cs generalizing hdrs with
  | nil => cases hdrs <;> rfl
  | cons col cols ih =>
    match hdrs, h with
    | hd :: hs, h =>
      simp only [insertHeadersGreedy, List.zipWith]
      rw [ih hs (by simpa using h)]

theorem insertHeadersGreedy_length (hdrs : List (List Char))
    (cs : List (List (List Char))) :
    (insertHeadersGreedy hdrs cs).length = cs.length := by
  induction cs generalizing hdrs with
  | nil => cases hdrs <;> rfl
  | cons col cols ih =>
    cases hdrs with
    | nil => rfl
    | cons hd hs => simp [insertHeadersGreedy, ih hs]

theorem zipWith_cons_twice (hdrs : List (List Char)) (cs : List (List (List Char))) :
    List.zipWith (fun h c => h :: c) hdrs
        (List.zipWith (fun h c => h :: c) hdrs cs)
      = List.zipWith (fun h c => h :: h :: c) hdrs cs := by
  induction hdrs generalizing cs with
  | nil => rfl
  | cons hd hs ih =>
    cases cs with
    | nil => rfl
    | cons col cols => simp [List.zipWith, ih]

/-- C10: the caller's supplied column lists are mutated in place by
header insertion (so a second call with the same lists inserts the
headers a second time), while in the row-major case the layout works on
a fresh transpose and no caller argument is mutated. -/
theorem c10_header_mutation :
    (∀ (cs : List (List (List Char))) (hdrs : List (List Char)),
        cs ≠ [] → hdrs ≠ [] → cs.length ≤ hdrs.length →
        caller_columns_after none (some cs) (some hdrs)
          = some (List.zipWith (fun h c => h :: c) hdrs cs)) ∧
    (∀ (cs : List (List (List Char))) (hdrs : List (List Char)),
        cs ≠ [] → hdrs ≠ [] → cs.length ≤ hdrs.length →
        caller_columns_after none
            (some (insertHeadersGreedy hdrs cs)) (some hdrs)
          = some (List.zipWith (fun h c => h :: h :: c) hdrs cs)) ∧
    (∀ (rs : List (List (List Char))) (hdrs : Option (List (List Char))),
        caller_columns_after (some rs) none hdrs = none ∧
        effectiveColumns (some rs) none = pyTranspose rs) := by
  refine ⟨?_, ?_, ?_⟩
  · intro cs hdrs hcs hhdrs hlen
    have htr : (optTruthy (some cs) && optTruthy (some hdrs)) = true := by
      cases cs with
      | nil => exact absurd rfl hcs
      | cons a b =>
        cases hdrs with
        | nil => exact absurd rfl hhdrs
        | cons hd hs => rfl
    simp only [caller_columns_after]
    rw [if_neg (by simp [optTruthy])]
    rw [if_pos htr]
    simp only [Option.getD_some]
    rw [insertHeadersGreedy_eq_zipWith _ _ hlen]
  · intro cs hdrs hcs hhdrs hlen
    have hlen2 : (insertHeadersGreedy hdrs cs).length ≤ hdrs.length := by
      rw [insertHeadersGreedy_length]
      exact hlen
    have hne2 : insertHeadersGreedy hdrs cs ≠ [] := by
      intro hc
      apply hcs
      have hl := insertHeadersGreedy_length hdrs cs
      rw [hc] at hl
      exact List.length_eq_zero.mp hl.symm
    have htr : (optTruthy (some (insertHeadersGreedy hdrs cs))
        && optTruthy (some hdrs)) = true := by
      cases hg : insertHeadersGreedy hdrs cs with
      | nil => exact absurd hg hne2
      | cons a b =>
        cases hdrs with
        | nil => exact absurd rfl hhdrs
        | cons hd hs => rfl
    simp only [caller_columns_after]
    rw [if_neg (by simp [optTruthy])]
    rw [if_pos htr]
    simp only [Option.getD_some]
    rw [insertHeadersGreedy_eq_zipWith _ _ hlen2]
    rw [insertHeadersGreedy_eq_zipWith _ _ hlen]
    rw [zipWith_cons_twice]
  · intro rs hdrs
    exact ⟨rfl, rfl⟩

/-- Witness for `c10_header_mutation` at concrete inputs: a single
column `["a"]` with header `"h"` gains the header once per call. -/
theorem c10_witness :
    caller_columns_after none (some [[['a']]]) (some [['h']])
        = some [[['h'], ['a']]] ∧
    caller_columns_after none (some (insertHeadersGreedy [['h']] [[['a']]]))
        (some [['h']]) = some [[['h'], ['h'], ['a']]] :=
  ⟨by
    have h := c10_header_mutation.1 [[['a']]] [['h']]
      (by decide) (by decide) (by decide)
    simpa using h,
   by
    have h := c10_header_mutation.2.1 [[['a']]] [['h']]
      (by decide) (by decide) (by decide)
    simpa using h⟩

/-! ### Daemon lifecycle (`cli.py` lines 55-66, 508-568, 571-590)

The daemon backend (`maestral.daemon`) is not part of the shown source;
`start_daemon_proc` and `stop_daemon_proc` are modelled from the spec.
The CLI functions over them are translated from `cli.py`.  CLI output is
modelled as a list of effects; colour codes and carriage returns in the
echoed strings are dropped. -/

/-- `Start` results of the daemon backend (spec section 6). -/
inductive StartRes where
  | ok
  | alreadyRunning
  | failed
  deriving DecidableEq, Repr

/-- `Stop` results of the daemon backend (spec section 6). -/
inductive StopRes where
  | ok
  | notRunning
  | killed
  deriving DecidableEq, Repr

/-- Daemon process state as observed by a liveness check. -/
inductive DState where
  | notRunning
  | running
  deriving DecidableEq, Repr

/-- Environment facts that determine the backend outcomes: whether a
fresh launch succeeds, whether a graceful stop finishes within the
grace period, and the daemon's pending-setup flags. -/
structure DaemonEnv where
  launchOk : Bool
  gracefulOk : Bool
  pendingLink : Bool
  pendingFolder : Bool
  deriving DecidableEq, Repr

/-- Modelled from the spec: `start_maestral_daemon_process` /
`start_maestral_daemon_thread` (`maestral.daemon`, not under `src/`).
From `Running` the start is a no-op reporting already-running; from
`NotRunning` it launches and transitions to `Running` on success,
staying `NotRunning` on failure. -/
def start_daemon_proc (env : DaemonEnv) : DState → StartRes × DState
  | .running => (.alreadyRunning, .running)
  | .notRunning =>
    if env.launchOk then (.ok, .running) else (.failed, .notRunning)

/-- Modelled from the spec: `stop_maestral_daemon_process`
(`maestral.daemon`, not under `src/`).  From `NotRunning` it reports
not-running and changes nothing; from `Running` it stops gracefully
within the grace period (`Ok`) or force-terminates (`Killed`), the
process being gone either way. -/
def stop_daemon_proc (env : DaemonEnv) : DState → StopRes × DState
  | .notRunning => (.notRunning, .notRunning)
  | .running =>
    if env.gracefulOk then (.ok, .notRunning) else (.killed, .notRunning)

/-- Observable CLI effects of the lifecycle commands. -/
inductive CliEff where
  | echo (msg : String)
  | linkDialog
  | folderDialog
  | setVerbose (v : Bool)
  | startSync
  | joinThread
  | pauseSync
  deriving DecidableEq, Repr

/-- `stop_daemon_with_cli_feedback` (`cli.py` lines 55-66): always a
normal return; each `Stop` outcome is echoed, never raised. -/
def stop_daemon_with_cli_feedback (env : DaemonEnv) (s : DState) :
    List CliEff × DState :=
  match stop_daemon_proc env s with
  | (.ok, s') =>
    ([.echo "Stopping Maestral...", .echo "Stopping Maestral...        [OK]"], s')
  | (.notRunning, s') =>
    ([.echo "Stopping Maestral...", .echo "Maestral daemon is not running."], s')
  | (.killed, s') =>
    ([.echo "Stopping Maestral...", .echo "Stopping Maestral...        [KILLED]"], s')

/-- The `start` command (`cli.py` lines 508-568): echo progress, start
the daemon (thread when `foreground`, process otherwise — same modelled
semantics), and return early on `AlreadyRunning` and `Failed` without
any post-start setup.  On `Ok` it runs the link dialog if a link is
pending, the folder dialog if the local folder is pending, sets
verbosity, starts sync, and joins the daemon thread when in the
foreground. -/
def cli_start (env : DaemonEnv) (foreground verbose : Bool) (s : DState) :
    List CliEff × DState :=
  match start_daemon_proc env s with
  | (.alreadyRunning, s') =>
    ([.echo "Starting Maestral...", .echo "Starting Maestral...        Already running."], s')
  | (.failed, s') =>
    ([.echo "Starting Maestral...", .echo "Starting Maestral...        [FAILED]",
      .echo "Please check logs for more information."], s')
  | (.ok, s') =>
    ([.echo "Starting Maestral...", .echo "Starting Maestral...        [OK]"]
      ++ (if env.pendingLink then [.linkDialog] else [])
      ++ (if env.pendingFolder then [.folderDialog] else [])
      ++ [.setVerbose verbose, .startSync]
      ++ (if foreground then [.joinThread] else []), s')

/-- The `restart` command (`cli.py` lines 586-590):
`stop_daemon_with_cli_feedback(config_name)` followed unconditionally
by `ctx.forward(start)`, which re-invokes `start` with the same
`foreground` and `verbose` options. -/
def cli_restart (env : DaemonEnv) (foreground verbose : Bool) (s : DState) :
    List CliEff × DState :=
  match stop_daemon_with_cli_feedback env s with
  | (effs1, s1) =>
    match cli_start env foreground verbose s1 with
    | (effs2, s2) => (effs1 ++ effs2, s2)

/-- C6: `restart` is stop followed unconditionally by start with the
same parameters — also after a `Killed` stop — and when the launch
succeeds the daemon ends `Running`. -/
theorem c6_restart_composition (env : DaemonEnv) (foreground verbose : Bool)
    (s : DState) (hlaunch : env.launchOk = true) :
    (cli_restart env foreground verbose s).1
        = (stop_daemon_with_cli_feedback env s).1
          ++ (cli_start env foreground verbose
              (stop_daemon_with_cli_feedback env s).2).1 ∧
    (cli_restart env foreground verbose s).2 = .running ∧
    CliEff.startSync ∈ (cli_restart env foreground verbose s).1 := by
  have hs1 : (stop_daemon_with_cli_feedback env s).2 = .notRunning := by
    cases s with
    | notRunning => rfl
    | running =>
      unfold stop_daemon_with_cli_feedback stop_daemon_proc
      by_cases hg : env.gracefulOk = true
      · rw [hg]
        rfl
      · rw [Bool.not_eq_true] at hg
        rw [hg]
        rfl
  refine ⟨?_, ?_, ?_⟩
  · unfold cli_restart
    rfl
  · unfold cli_restart
    show (cli_start env foreground verbose (stop_daemon_with_cli_feedback env s).2).2
        = DState.running
    rw [hs1]
    unfold cli_start start_daemon_proc
    rw [hlaunch]
    rfl
  · show CliEff.startSync ∈ (stop_daemon_with_cli_feedback env s).1
        ++ (cli_start env foreground verbose (stop_daemon_with_cli_feedback env s).2).1
    apply List.mem_append_right
    rw [hs1]
    unfold cli_start start_daemon_proc
    rw [hlaunch]
    simp

/-- Witness for `c6_restart_composition` where the stop reports
`Killed` (graceful stop fails on a running daemon) and start still runs
and ends `Running`. -/
theorem c6_witness :
    (cli_restart ⟨true, false, false, false⟩ false false .running).2 = .running ∧
    CliEff.startSync ∈ (cli_restart ⟨true, false, false, false⟩ false false .running).1 ∧
    (stop_daemon_proc ⟨true, false, false, false⟩ .running).1 = .killed :=
  ⟨(c6_restart_composition ⟨true, false, false, false⟩ false false .running rfl).2.1,
   (c6_restart_composition ⟨true, false, false, false⟩ false false .running rfl).2.2,
   by decide⟩

/-- C7: lifecycle idempotence.  Stopping a non-running daemon echoes a
normal message and changes nothing (the function is total: no
exception); starting a running daemon echoes already-running, leaves
the state unchanged, and performs none of the post-start setup. -/
theorem c7_lifecycle_idempotent :
    (∀ env : DaemonEnv,
      stop_daemon_with_cli_feedback env .notRunning
        = ([.echo "Stopping Maestral...", .echo "Maestral daemon is not running."],
           .notRunning)) ∧
    (∀ (env : DaemonEnv) (foreground verbose : Bool),
      cli_start env foreground verbose .running
        = ([.echo "Starting Maestral...",
            .echo "Starting Maestral...        Already running."], .running) ∧
      CliEff.linkDialog ∉ (cli_start env foreground verbose .running).1 ∧
      CliEff.folderDialog ∉ (cli_start env foreground verbose .running).1 ∧
      CliEff.startSync ∉ (cli_start env foreground verbose .running).1) := by
  constructor
  · intro env
    rfl
  · intro env foreground verbose
    refine ⟨rfl, ?_, ?_, ?_⟩ <;> simp [cli_start, start_daemon_proc]

/-! ### Claim C8: strict-mode proxy commands against a non-running daemon

`MaestralProxy` and the Pyro transport are not part of the shown
source; `acquireProxy` is modelled from the spec.  `cli_pause`,
`cli_status` and `cli_file_status` are translated from `cli.py`
lines 623-633, 651-684 and 687-709: the body runs inside
`try: ... except Pyro5.errors.CommunicationError:` and the handler
echoes a plain message (`'unwatched'` for `file_status`). -/

/-- Exceptions at the command level: the transport failure plus any
Python error escaping the body. -/
inductive PyExc where
  | communicationError
  | other (e : PyErr)
  deriving DecidableEq, Repr

/-- The daemon-side values read by the `status` command. -/
structure ProxyData where
  email : List Char
  usage : List Char
  statusStr : List Char
  running : Bool
  syncErrors : List ((List Char) × (List Char) × (List Char))
  fatalErrors : List ((List Char) × (List Char))

/-- Modelled from the spec: `MaestralProxy(config_name)`
(`maestral.daemon`, not under `src/`) in strict mode raises a Pyro
`CommunicationError` when no daemon is reachable for the
configuration; it makes no attempt to start one. -/
def acquireProxy (daemon : Option ProxyData) : Except PyExc ProxyData :=
  match daemon with
  | none => .error .communicationError
  | some d => .ok d

/-- `check_for_fatal_errors` (`cli.py` lines 177-205): echo the first
fatal error (title, message wrapped to the terminal width) and report
whether one exists. -/
def check_for_fatal_errors (terminal_width : ℤ) (m : ProxyData) :
    Except PyExc (List CliEff × Bool) :=
  match m.fatalErrors with
  | [] => .ok ([], false)
  | (title, msg) :: _ =>
    match pyWrap terminal_width msg with
    | .error e => .error (.other e)
    | .ok lines =>
      .ok ([.echo "", .echo (String.mk title),
            .echo (String.mk (List.intercalate ['\n'] lines)), .echo ""], true)

/-- The body of the `status` command (`cli.py` lines 657-681): account
lines, fatal-error check, and — when sync errors exist — a
two-column table built by `format_table` with headers
`PATH` / `ERROR`. -/
def cli_status_body (terminal_width : ℤ) (m : ProxyData) :
    Except PyExc (List CliEff) := do
  let base := [CliEff.echo "",
    .echo (String.mk ("Account:      ".data ++ m.email)),
    .echo (String.mk ("Usage:        ".data ++ m.usage)),
    .echo (String.mk ("Status:       ".data ++ m.statusStr)),
    .echo (if m.running then "Sync threads: Running" else "Sync threads: Stopped"),
    .echo (String.mk ("Sync errors:  ".data ++ (toString m.syncErrors.length).data)),
    .echo ""]
  let fat ← check_for_fatal_errors terminal_width m
  match m.syncErrors with
  | [] => .ok (base ++ fat.1)
  | _ :: _ =>
    let col0 := m.syncErrors.map fun e => '\'' :: e.1 ++ ['\'']
    let col1 := m.syncErrors.map fun e => e.2.1 ++ '.' :: ' ' :: e.2.2
    match format_table terminal_width none (some [col0, col1])
        (some ["PATH".data, "ERROR".data]) 2 none true with
    | .error e => .error (.other e)
    | .ok tbl => .ok (base ++ fat.1 ++ [.echo (String.mk tbl), .echo ""])

/-- The `status` command (`cli.py` lines 651-684). -/
def cli_status (terminal_width : ℤ) (daemon : Option ProxyData) :
    Except PyExc (List CliEff) :=
  match (acquireProxy daemon).bind (cli_status_body terminal_width) with
  | .error .communicationError => .ok [.echo "Maestral daemon is not running."]
  | other => other

/-- The `pause` command (`cli.py` lines 623-633). -/
def cli_pause (daemon : Option ProxyData) : Except PyExc (List CliEff) :=
  match (acquireProxy daemon).bind
      (fun _ => (.ok [.pauseSync, .echo "Syncing paused."] : Except PyExc _)) with
  | .error .communicationError => .ok [.echo "Maestral daemon is not running."]
  | other => other

/-- The `file_status` command (`cli.py` lines 687-709); its documented
degraded value for an unreachable daemon is `'unwatched'`. -/
def cli_file_status (terminal_width : ℤ) (daemon : Option ProxyData) :
    Except PyExc (List CliEff) :=
  match (acquireProxy daemon).bind (fun m =>
      (check_for_fatal_errors terminal_width m).bind (fun fat =>
        if fat.2 then .ok fat.1
        else .ok (fat.1 ++ [.echo "file status"]))) with
  | .error .communicationError => .ok [.echo "unwatched"]
  | other => other

/-- C8: every modelled strict-mode command run against a non-running
daemon returns normally (`.ok`, so no transport exception escapes) with
the plain not-running message, or the documented degraded value for
`file_status`. -/
theorem c8_strict_mode_unreachable (terminal_width : ℤ) :
    cli_status terminal_width none = .ok [.echo "Maestral daemon is not running."] ∧
    cli_pause none = .ok [.echo "Maestral daemon is not running."] ∧
    cli_file_status terminal_width none = .ok [.echo "unwatched"] :=
  ⟨rfl, rfl, rfl⟩

/-- Witness applying `c8_strict_mode_unreachable` at terminal width 80. -/
theorem c8_witness :
    cli_status 80 none = .ok [.echo "Maestral daemon is not running."] ∧
    cli_pause none = .ok [.echo "Maestral daemon is not running."] ∧
    cli_file_status 80 none = .ok [.echo "unwatched"] :=
  c8_strict_mode_unreachable 80

/-! ### Claim C9: the live activity monitor loop (`cli.py` lines 728-780) -/

/-- `ord('q')`. -/
def qKeyCode : ℤ := 113

/-- Record of one tick of the curses loop: the key returned by the
single non-blocking `screen.getch()` poll (negative means no input),
the seconds slept afterwards, and whether the loop quit. -/
structure ActTick where
  key : ℤ
  slept : ℕ
  quit : Bool
  deriving DecidableEq, Repr

/-- One tick of the `curses_loop` body (`cli.py` lines 733-780): after
rendering, `screen.getch()` is polled exactly once; `'q'` breaks out of
the loop at once, a negative result (no input) sleeps one second, and
any other key continues immediately. -/
def activityTick (k : ℤ) : ActTick :=
  if k = qKeyCode then ⟨k, 0, true⟩
  else if k < 0 then ⟨k, 1, false⟩
  else ⟨k, 0, false⟩

/-- The loop, driven by the stream of poll results; each tick consumes
exactly one element.  The trace of an unbounded run is the limit of the
traces over finite prefixes of the stream. -/
def activityLoop : List ℤ → List ActTick
  | [] => []
  | k :: ks =>
    if (activityTick k).quit then [activityTick k]
    else activityTick k :: activityLoop ks

theorem activityTick_key (k : ℤ) : (activityTick k).key = k := by
  unfold activityTick
  split
  · rfl
  · split <;> rfl

/-- C9: per tick the input is polled exactly once (the `i`-th tick
consumes the `i`-th poll result); a quit-key tick ends the loop within
that tick with no sleep, regardless of later input; and a tick sleeps
one time unit exactly when its poll returned no input, otherwise it
continues immediately. -/
theorem c9_activity_loop :
    (∀ keys : List ℤ,
      (activityLoop keys).map ActTick.key = keys.take (activityLoop keys).length) ∧
    (∀ ks : List ℤ, activityLoop (qKeyCode :: ks) = [⟨qKeyCode, 0, true⟩]) ∧
    (∀ (keys : List ℤ) (t : ActTick), t ∈ activityLoop keys →
      (t.quit = true ↔ t.key = qKeyCode) ∧
      t.slept = (if t.key = qKeyCode then 0 else if t.key < 0 then 1 else 0)) := by
  refine ⟨?_, ?_, ?_⟩
  · intro keys
    induction keys with
    | nil => rfl
    | cons k ks ih =>
      unfold activityLoop
      by_cases hq : (activityTick k).quit = true
      · rw [if_pos hq]
        simp [activityTick_key]
      · rw [if_neg hq]
        simp only [List.map_cons, List.length_cons, List.take_succ_cons,
          activityTick_key, ih]
  · intro ks
    unfold activityLoop activityTick
    rw [if_pos rfl]
    rw [if_pos (by rfl)]
  · intro keys t ht
    induction keys with
    | nil => simp [activityLoop] at ht
    | cons k ks ih =>
      unfold activityLoop at ht
      by_cases hq : (activityTick k).quit = true
      · rw [if_pos hq] at ht
        simp only [List.mem_singleton] at ht
        subst ht
        unfold activityTick at hq ⊢
        by_cases h1 : k = qKeyCode
        · simp [h1]
        · rw [if_neg h1] at hq ⊢
          by_cases h2 : k < 0
          · rw [if_pos h2] at hq
            exact absurd hq (by simp)
          · rw [if_neg h2] at hq
            exact absurd hq (by simp)
      · rw [if_neg hq] at ht
        rcases List.mem_cons.mp ht with h | h
        · subst h
          unfold activityTick at hq ⊢
          by_cases h1 : k = qKeyCode
          · rw [if_pos h1] at hq
            exact absurd hq (by simp)
          · rw [if_neg h1] at hq ⊢
            by_cases h2 : k < 0
            · simp [h2, h1]
            · simp [h2, h1]
        · exact ih h

/-- Witness for `c9_activity_loop` on the concrete poll stream
`[-1, 55, q]`: the no-input tick sleeps once, the other-key tick does
not sleep, the quit tick ends the trace. -/
theorem c9_witness :
    (activityLoop [-1, 55, qKeyCode]).map ActTick.key
        = [-1, 55, qKeyCode].take (activityLoop [-1, 55, qKeyCode]).length ∧
    activityLoop (qKeyCode :: [(7 : ℤ)]) = [⟨qKeyCode, 0, true⟩] ∧
    ((⟨-1, 1, false⟩ : ActTick).quit = true ↔ (⟨-1, 1, false⟩ : ActTick).key = qKeyCode) :=
  ⟨c9_activity_loop.1 [-1, 55, qKeyCode],
   c9_activity_loop.2.1 [(7 : ℤ)],
   (c9_activity_loop.2.2 [-1, 55, qKeyCode] ⟨-1, 1, false⟩ (by decide)).1⟩

/-! ### Claim C4: wrap correctness

Vocabulary for the claim: the whitespace-delimited words of a text, and
whitespace collapsing (words joined by single spaces). -/

/-- Word splitter: accumulate the current word (reversed) and flush it
at whitespace. -/
def wordsAux : List Char → List Char → List (List Char)
  | acc, [] => if acc.isEmpty then [] else [acc.reverse]
  | acc, c :: rest =>
    if wsChar c then
      if acc.isEmpty then wordsAux [] rest else acc.reverse :: wordsAux [] rest
    else wordsAux (c :: acc) rest

/-- The maximal whitespace-free words of a text, in order. -/
def wordsOf (s : List Char) : List (List Char) := wordsAux [] s

/-- Join lines with single spaces (as in the claim: concatenating a
cell's wrapped lines with single spaces). -/
def joinWithSpaces : List (List Char) → List Char
  | [] => []
  | [l] => l
  | l :: l2 :: ls => l ++ ' ' :: joinWithSpaces (l2 :: ls)

/-- Collapse whitespace: the text's words joined by single spaces
(runs of whitespace become one space; leading and trailing whitespace
disappears). -/
def collapseWS (s : List Char) : List Char := joinWithSpaces (wordsOf s)

/-- Every character of the chunk is whitespace (holds vacuously for the
empty chunk). -/
def allWS (c : List Char) : Prop := ∀ x ∈ c, wsChar x = true

/-- No character of the chunk is whitespace. -/
def allNW (c : List Char) : Prop := ∀ x ∈ c, wsChar x = false

example : wordsOf "  xxx aaa  bbb ".data = ["xxx".data, "aaa".data, "bbb".data] := by
  decide
example : collapseWS "  a   b ".data = "a b".data := by decide

theorem wordsAux_nonws_accum (w : List Char) :
    allNW w → ∀ (acc z : List Char),
      wordsAux acc (w ++ z) = wordsAux (w.reverse ++ acc) z := by
  induction w with
  | nil =>
    intro _ acc z
    simp
  | cons c w' ih =>
    intro hnw acc z
    have hc : wsChar c = false := hnw c (by simp)
    simp only [List.cons_append, wordsAux, hc, Bool.false_eq_true, if_false,
      List.append_eq]
    rw [ih (fun x hx => hnw x (by simp [hx])) (c :: acc) z]
    simp

theorem wordsAux_ws_head (c : Char) (hc : wsChar c = true) (acc z : List Char) :
    wordsAux acc (c :: z)
      = (if acc.isEmpty then ([] : List (List Char)) else [acc.reverse])
        ++ wordsAux [] z := by
  simp only [wordsAux, hc, if_true]
  cases acc with
  | nil => simp
  | cons a as => simp

theorem wordsAux_ws_run (w : List Char) :
    allWS w → ∀ z : List Char, wordsAux [] (w ++ z) = wordsAux [] z := by
  induction w with
  | nil => intro _ z; simp
  | cons c w' ih =>
    intro hws z
    have hc : wsChar c = true := hws c (by simp)
    rw [List.cons_append, wordsAux_ws_head c hc]
    simp only [List.isEmpty_nil, if_true, List.nil_append]
    exact ih (fun x hx => hws x (by simp [hx])) z

theorem wordsOf_word_chunk (w : List Char) (hne : w ≠ []) (hnw : allNW w)
    (z : List Char)
    (hz : z = [] ∨ ∃ d z', z = d :: z' ∧ wsChar d = true) :
    wordsOf (w ++ z) = w :: wordsOf z := by
  unfold wordsOf
  rw [wordsAux_nonws_accum w hnw [] z]
  have hrev : (w.reverse ++ []) = w.reverse := by simp
  rw [hrev]
  have hrevne : w.reverse.isEmpty = false := by
    cases w with
    | nil => exact absurd rfl hne
    | cons a as => simp
  rcases hz with hz | ⟨d, z', hzeq, hd⟩
  · subst hz
    simp only [wordsAux, hrevne, Bool.false_eq_true, if_false, List.reverse_reverse]
    simp [wordsAux]
  · subst hzeq
    rw [wordsAux_ws_head d hd]
    rw [wordsAux_ws_head d hd [] z']
    simp [hrevne]

/-- Words of a flattened chunk list with non-empty homogeneous chunks
and no two adjacent word chunks: exactly the non-whitespace chunks. -/
theorem wordsOf_flatten (chunks : List (List Char))
    (hok : ∀ c ∈ chunks, c ≠ [] ∧ (allWS c ∨ allNW c))
    (hch : List.Chain' (fun a b => allWS a ∨ allWS b) chunks) :
    wordsOf chunks.flatten = chunks.filter (fun c => !(c.all wsChar)) := by
  induction chunks with
  | nil => rfl
  | cons c cs ih =>
    have hc := hok c (by simp)
    simp only [List.flatten_cons]
    by_cases hws : allWS c
    · have h1 : wordsOf (c ++ cs.flatten) = wordsOf cs.flatten :=
        wordsAux_ws_run c hws cs.flatten
      rw [h1, ih (fun x hx => hok x (by simp [hx])) hch.tail]
      have hall : (c.all wsChar) = true := List.all_eq_true.mpr hws
      simp [List.filter_cons, hall]
    · have hnw : allNW c := hc.2.resolve_left hws
      have hne := hc.1
      have hz : cs.flatten = [] ∨
          ∃ d z', cs.flatten = d :: z' ∧ wsChar d = true := by
        cases cs with
        | nil => exact Or.inl rfl
        | cons c2 cs' =>
          have h2 : allWS c2 := by
            have hrel := (List.chain'_cons.mp hch).1
            exact hrel.resolve_left hws
          have hc2 := hok c2 (by simp)
          cases hc2eq : c2 with
          | nil => exact absurd hc2eq hc2.1
          | cons d rest2 =>
            refine Or.inr ⟨d, rest2 ++ cs'.flatten, by simp [hc2eq], ?_⟩
            have : d ∈ c2 := by rw [hc2eq]; simp
            exact h2 d this
      rw [wordsOf_word_chunk c hne hnw _ hz]
      rw [ih (fun x hx => hok x (by simp [hx])) hch.tail]
      have hfil : (c.all wsChar) = false := by
        by_contra hcontra
        rw [Bool.not_eq_false] at hcontra
        exact hws (List.all_eq_true.mp hcontra)
      simp [List.filter_cons, hfil]

theorem wordsAux_munge_map (l : List Char) :
    ∀ acc : List Char,
      wordsAux acc (l.map fun c => if wsChar c then ' ' else c) = wordsAux acc l := by
  induction l with
  | nil => intro acc; rfl
  | cons c l' ih =>
    intro acc
    by_cases hc : wsChar c = true
    · simp only [List.map_cons, hc, if_true]
      rw [wordsAux_ws_head ' ' rfl, wordsAux_ws_head c hc, ih []]
    · rw [Bool.not_eq_true] at hc
      simp only [List.map_cons, hc, Bool.false_eq_true, if_false]
      simp only [wordsAux, hc, Bool.false_eq_true, if_false]
      exact ih (c :: acc)

theorem wordsAux_replicate_space (n : ℕ) :
    ∀ z : List Char, wordsAux [] (List.replicate n ' ' ++ z) = wordsAux [] z := by
  intro z
  apply wordsAux_ws_run
  intro x hx
  rw [List.eq_of_mem_replicate hx]
  rfl

theorem wordsAux_expandTabs (l : List Char) :
    ∀ (col : ℕ) (acc : List Char),
      wordsAux acc (expandTabsGo col l) = wordsAux acc l := by
  induction l with
  | nil => intro col acc; rfl
  | cons c l' ih =>
    intro col acc
    by_cases htab : c = '\t'
    · subst htab
      have hstep : expandTabsGo col ('\t' :: l')
          = List.replicate (8 - col % 8) ' '
            ++ expandTabsGo (col + (8 - col % 8)) l' := by
        simp [expandTabsGo]
      have hn : 8 - col % 8 = (8 - col % 8 - 1) + 1 := by omega
      rw [hstep, hn, List.replicate_succ, List.cons_append]
      rw [wordsAux_ws_head ' ' rfl]
      rw [wordsAux_replicate_space]
      rw [ih _ []]
      rw [wordsAux_ws_head '\t' rfl]
    · by_cases hnl : c = '\n' ∨ c = '\r'
      · have hcw : wsChar c = true := by
          rcases hnl with h | h <;> rw [h] <;> rfl
        have hcond : (c = '\n' || c = '\r') = true := by
          rcases hnl with h | h <;> simp [h]
        simp only [expandTabsGo, if_neg htab, hcond, if_true]
        rw [wordsAux_ws_head c hcw, wordsAux_ws_head c hcw, ih 0 []]
      · have hcond : (c = '\n' || c = '\r') = false := by
          rcases Decidable.em (c = '\n') with h | h
          · exact absurd (Or.inl h) hnl
          · rcases Decidable.em (c = '\r') with h' | h'
            · exact absurd (Or.inr h') hnl
            · simp [h, h']
        simp only [expandTabsGo, if_neg htab, hcond, Bool.false_eq_true, if_false]
        by_cases hcw : wsChar c = true
        · rw [wordsAux_ws_head c hcw, wordsAux_ws_head c hcw, ih _ []]
        · rw [Bool.not_eq_true] at hcw
          simp only [wordsAux, hcw, Bool.false_eq_true, if_false]
          exact ih _ (c :: acc)

/-- Munging (tab expansion and whitespace replacement) does not change
the words of a text. -/
theorem wordsOf_munge (text : List Char) : wordsOf (munge text) = wordsOf text := by
  unfold wordsOf munge
  rw [wordsAux_munge_map, wordsAux_expandTabs]

theorem wordsAux_append_space (xs : List Char) :
    ∀ (acc ys : List Char),
      wordsAux acc (xs ++ ' ' :: ys) = wordsAux acc xs ++ wordsAux [] ys := by
  induction xs with
  | nil =>
    intro acc ys
    rw [List.nil_append, wordsAux_ws_head ' ' rfl]
    cases acc with
    | nil => simp [wordsAux]
    | cons a as => simp [wordsAux]
  | cons c xs' ih =>
    intro acc ys
    by_cases hc : wsChar c = true
    · rw [List.cons_append, wordsAux_ws_head c hc, wordsAux_ws_head c hc, ih []]
      simp
    · rw [Bool.not_eq_true] at hc
      rw [List.cons_append]
      simp only [wordsAux, hc, Bool.false_eq_true, if_false]
      exact ih (c :: acc) ys

/-- Words distribute over joining lines with single spaces. -/
theorem wordsOf_joinWithSpaces (lines : List (List Char)) :
    wordsOf (joinWithSpaces lines) = (lines.map wordsOf).flatten := by
  induction lines with
  | nil => rfl
  | cons l ls ih =>
    cases ls with
    | nil => simp [joinWithSpaces]
    | cons l2 ls' =>
      simp only [joinWithSpaces, List.map_cons, List.flatten_cons]
      have h1 : wordsOf (l ++ ' ' :: joinWithSpaces (l2 :: ls'))
          = wordsOf l ++ wordsOf (joinWithSpaces (l2 :: ls')) :=
        wordsAux_append_space l [] _
      rw [h1, ih]
      simp

/-- The chunks produced by `splitRuns`: they flatten back to the text,
each is a non-empty homogeneous run, and no two adjacent chunks are
both words. -/
theorem splitRuns_spec (l : List Char) :
    (splitRuns l).flatten = l ∧
    (∀ r ∈ splitRuns l, r ≠ [] ∧ (allWS r ∨ allNW r)) ∧
    List.Chain' (fun a b => allWS a ∨ allWS b) (splitRuns l) := by
  induction l with
  | nil =>
    refine ⟨rfl, ?_, ?_⟩
    · intro r hr
      simp [splitRuns] at hr
    · simp [splitRuns]
  | cons c rest ih =>
    obtain ⟨ihf, ihok, ihch⟩ := ih
    cases hsr : splitRuns rest with
    | nil =>
      have hrest : rest = [] := by rw [← ihf, hsr]; rfl
      have hres : splitRuns (c :: rest) = [[c]] := by
        simp only [splitRuns, hsr]
      rw [hres]
      refine ⟨by simp [hrest], ?_, by simp⟩
      intro r hr
      simp only [List.mem_singleton] at hr
      subst hr
      refine ⟨by simp, ?_⟩
      cases hb : wsChar c with
      | true => exact Or.inl (fun x hx => by simp at hx; rw [hx]; exact hb)
      | false => exact Or.inr (fun x hx => by simp at hx; rw [hx]; exact hb)
    | cons r rs =>
      rw [hsr] at ihf ihok ihch
      cases r with
      | nil => exact absurd rfl (ihok [] (by simp)).1
      | cons d run =>
        have hdr := (ihok (d :: run) (by simp)).2
        by_cases hcd : wsChar c = wsChar d
        · have hres : splitRuns (c :: rest) = (c :: d :: run) :: rs := by
            simp only [splitRuns, hsr, if_pos hcd]
          rw [hres]
          have hbig : allWS (c :: d :: run) ∨ allNW (c :: d :: run) := by
            rcases hdr with hws | hnw
            · refine Or.inl ?_
              intro y hy
              rcases List.mem_cons.mp hy with hy | hy
              · rw [hy, hcd]
                exact hws d (by simp)
              · exact hws y hy
            · refine Or.inr ?_
              intro y hy
              rcases List.mem_cons.mp hy with hy | hy
              · rw [hy, hcd]
                exact hnw d (by simp)
              · exact hnw y hy
          refine ⟨?_, ?_, ?_⟩
          · simp only [List.flatten_cons] at ihf ⊢
            rw [List.cons_append, ihf]
          · intro x hx
            rcases List.mem_cons.mp hx with hx | hx
            · subst hx
              exact ⟨by simp, hbig⟩
            · exact ihok x (by simp [hx])
          · rw [List.chain'_cons'] at ihch ⊢
            refine ⟨?_, ihch.2⟩
            intro b hb
            rcases ihch.1 b hb with hws | hws
            · refine Or.inl ?_
              intro y hy
              rcases List.mem_cons.mp hy with hy | hy
              · rw [hy, hcd]
                exact hws d (by simp)
              · exact hws y hy
            · exact Or.inr hws
        · have hres : splitRuns (c :: rest) = [c] :: (d :: run) :: rs := by
            simp only [splitRuns, hsr, if_neg hcd]
          rw [hres]
          refine ⟨?_, ?_, ?_⟩
          · simp only [List.flatten_cons] at ihf ⊢
            rw [← ihf]
            rfl
          · intro x hx
            rcases List.mem_cons.mp hx with hx | hx
            · subst hx
              refine ⟨by simp, ?_⟩
              cases hb : wsChar c with
              | true => exact Or.inl (fun x hx => by simp at hx; rw [hx]; exact hb)
              | false => exact Or.inr (fun x hx => by simp at hx; rw [hx]; exact hb)
            · exact ihok x hx
          · rw [List.chain'_cons]
            refine ⟨?_, ihch⟩
            rcases hdr with hws | hnw
            · exact Or.inr hws
            · refine Or.inl ?_
              intro y hy
              simp only [List.mem_singleton] at hy
              subst hy
              have hd : wsChar d = false := hnw d (by simp)
              cases hc : wsChar y with
              | true => rfl
              | false => exact absurd (by rw [hc, hd]) hcd

theorem chunksMeasure_append (a b : List (List Char)) :
    chunksMeasure (a ++ b) = chunksMeasure a + chunksMeasure b := by
  simp [chunksMeasure]

theorem chunksMeasure_cons (c : List Char) (cs : List (List Char)) :
    chunksMeasure (c :: cs) = (c.length + 1) + chunksMeasure cs := by
  simp [chunksMeasure]

theorem chain'_dropLast {α : Type} {R : α → α → Prop} {l : List α}
    (h : List.Chain' R l) : List.Chain' R l.dropLast := by
  rcases eq_or_ne l [] with rfl | hne
  · simp
  · have hdecomp := List.dropLast_append_getLast hne
    have h2 : List.Chain' R (l.dropLast ++ [l.getLast hne]) := by
      rw [hdecomp]
      exact h
    exact (List.chain'_append.mp h2).1

/-- Behaviour of the fitting loop: it splits the chunks into a fitted
prefix and the rest, the resulting length is the initial length plus the
prefix lengths, the result stays within `width` when it started there,
an empty prefix leaves everything unchanged, and the head of the rest
did not fit. -/
theorem fitLoop_spec (width : ℕ) (chunks : List (List Char)) : ∀ curLen : ℕ,
    (fitLoop width curLen chunks).1 ++ (fitLoop width curLen chunks).2.2 = chunks ∧
    (fitLoop width curLen chunks).2.1
      = curLen + (((fitLoop width curLen chunks).1.map List.length).sum) ∧
    (curLen ≤ width → (fitLoop width curLen chunks).2.1 ≤ width) ∧
    ((fitLoop width curLen chunks).1 = [] →
      (fitLoop width curLen chunks).2.2 = chunks ∧
      (fitLoop width curLen chunks).2.1 = curLen) ∧
    (∀ d ds, (fitLoop width curLen chunks).2.2 = d :: ds →
      width < (fitLoop width curLen chunks).2.1 + d.length) := by
  induction chunks with
  | nil =>
    intro curLen
    refine ⟨rfl, by simp [fitLoop], fun h => ?_, fun _ => ⟨rfl, rfl⟩, ?_⟩
    · simpa [fitLoop] using h
    · intro d ds h
      exact absurd h (by simp [fitLoop])
  | cons c cs ih =>
    intro curLen
    by_cases hfit : curLen + c.length ≤ width
    · have hred : fitLoop width curLen (c :: cs)
          = (c :: (fitLoop width (curLen + c.length) cs).1,
             (fitLoop width (curLen + c.length) cs).2.1,
             (fitLoop width (curLen + c.length) cs).2.2) := by
        simp only [fitLoop, if_pos hfit]
      obtain ⟨ih1, ih2, ih3, ih4, ih5⟩ := ih (curLen + c.length)
      rw [hred]
      refine ⟨?_, ?_, ?_, ?_, ?_⟩
      · simp only [List.cons_append, ih1]
      · simp only [List.map_cons, List.sum_cons]
        omega
      · intro _
        exact ih3 hfit
      · intro h
        exact absurd h (by simp)
      · intro d ds h
        exact ih5 d ds h
    · have hred : fitLoop width curLen (c :: cs) = ([], curLen, c :: cs) := by
        simp only [fitLoop, if_neg hfit]
      rw [hred]
      refine ⟨rfl, by simp, fun h => h, fun _ => ⟨rfl, rfl⟩, ?_⟩
      intro d ds h
      cases h
      dsimp only
      omega

theorem sum_lens_dropLast (l : List (List Char)) :
    ((l.dropLast).map List.length).sum ≤ (l.map List.length).sum := by
  rcases eq_or_ne l [] with rfl | hne
  · simp
  · conv_rhs => rw [← List.dropLast_append_getLast hne]
    rw [List.map_append, List.sum_append]
    omega

theorem sum_lens_dropTrailingWS (l : List (List Char)) :
    ((dropTrailingWS l).map List.length).sum ≤ (l.map List.length).sum := by
  unfold dropTrailingWS
  by_cases h : chunkWS (l.getLastD ['x']) = true
  · rw [if_pos h]
    exact sum_lens_dropLast l
  · rw [if_neg h]

theorem emitLine_len (width : ℕ) (lines : List (List Char))
    (hlines : ∀ l ∈ lines, l.length ≤ width)
    (cur2 : List (List Char)) (hsum2 : (cur2.map List.length).sum ≤ width) :
    ∀ l ∈ (if (dropTrailingWS cur2).isEmpty then lines
           else lines ++ [(dropTrailingWS cur2).flatten]), l.length ≤ width := by
  intro l hl
  by_cases he : (dropTrailingWS cur2).isEmpty = true
  · rw [if_pos he] at hl
    exact hlines l hl
  · rw [if_neg he] at hl
    rcases List.mem_append.mp hl with h | h
    · exact hlines l h
    · simp only [List.mem_singleton] at h
      subst h
      calc (dropTrailingWS cur2).flatten.length
          = ((dropTrailingWS cur2).map List.length).sum := by
            simp [List.length_flatten]
        _ ≤ (cur2.map List.length).sum := sum_lens_dropTrailingWS cur2
        _ ≤ width := hsum2

/-- Every line emitted by one wrap step fits in `width` (for a positive
width), with no assumption on the chunks: over-long chunks are split at
exactly the remaining space. -/
theorem wrapStep_len (width : ℕ) (hw : 1 ≤ width) (lines : List (List Char))
    (c : List Char) (rest : List (List Char))
    (hlines : ∀ l ∈ lines, l.length ≤ width) :
    ∀ l ∈ (wrapStep width lines c rest).1, l.length ≤ width := by
  unfold wrapStep
  rcases hF : fitLoop width 0 (if chunkWS c && !lines.isEmpty then rest else c :: rest)
    with ⟨cur, curLen, rest1⟩
  obtain ⟨hsplit, hlen, hbound, hnil, hnofit⟩ :=
    fitLoop_spec width (if chunkWS c && !lines.isEmpty then rest else c :: rest) 0
  rw [hF] at hsplit hlen hbound hnil hnofit
  dsimp only at hsplit hlen hbound hnil hnofit
  have hcurlen : curLen ≤ width := hbound (by omega)
  have hsum : curLen = (cur.map List.length).sum := by simpa using hlen
  cases rest1 with
  | nil =>
    dsimp only
    exact emitLine_len width lines hlines cur (by omega)
  | cons d rest2 =>
    dsimp only
    by_cases hlong : width < d.length
    · rw [if_pos hlong]
      rw [if_neg (by omega : ¬ width < 1)]
      dsimp only
      apply emitLine_len width lines hlines
      rw [List.map_append, List.sum_append]
      simp only [List.map_cons, List.map_nil, List.sum_cons, List.sum_nil,
        List.length_take]
      omega
    · rw [if_neg hlong]
      exact emitLine_len width lines hlines cur (by omega)

/-- Every wrap step strictly decreases the chunk measure (given a
positive width and non-empty chunks), so the fuel `chunksMeasure + 1`
suffices for the loop to run to completion. -/
theorem wrapStep_measure (width : ℕ) (hw : 1 ≤ width) (lines : List (List Char))
    (c : List Char) (rest : List (List Char)) :
    chunksMeasure (wrapStep width lines c rest).2 < chunksMeasure (c :: rest) := by
  unfold wrapStep
  rcases hF : fitLoop width 0 (if chunkWS c && !lines.isEmpty then rest else c :: rest)
    with ⟨cur, curLen, rest1⟩
  obtain ⟨hsplit, hlen, hbound, hnil, hnofit⟩ :=
    fitLoop_spec width (if chunkWS c && !lines.isEmpty then rest else c :: rest) 0
  rw [hF] at hsplit hlen hbound hnil hnofit
  dsimp only at hsplit hlen hbound hnil hnofit
  have hmeq : chunksMeasure cur + chunksMeasure rest1
      = chunksMeasure (if chunkWS c && !lines.isEmpty then rest else c :: rest) := by
    rw [← chunksMeasure_append, hsplit]
  have hm1 : chunksMeasure (if chunkWS c && !lines.isEmpty then rest else c :: rest)
      ≤ chunksMeasure (c :: rest) := by
    by_cases hdrop : (chunkWS c && !lines.isEmpty) = true
    · rw [if_pos hdrop, chunksMeasure_cons]
      omega
    · rw [if_neg hdrop]
  have hcm : chunksMeasure (c :: rest) = c.length + 1 + chunksMeasure rest :=
    chunksMeasure_cons c rest
  cases rest1 with
  | nil =>
    dsimp only
    have h0 : chunksMeasure ([] : List (List Char)) = 0 := rfl
    omega
  | cons d rest2 =>
    dsimp only
    have hrest1m : chunksMeasure (d :: rest2) = d.length + 1 + chunksMeasure rest2 :=
      chunksMeasure_cons d rest2
    by_cases hlong : width < d.length
    · rw [if_pos hlong]
      rw [if_neg (by omega : ¬ width < 1)]
      dsimp only
      have hm3 : chunksMeasure (List.drop (width - curLen) d :: rest2)
          = (d.length - (width - curLen)) + 1 + chunksMeasure rest2 := by
        rw [chunksMeasure_cons, List.length_drop]
      rw [hm3]
      by_cases hcur : cur = []
      · have hn := hnil hcur
        have hd : d :: rest2 = (if chunkWS c && !lines.isEmpty then rest else c :: rest) := hn.1
        have hc0 : curLen = 0 := hn.2
        by_cases hdrop : (chunkWS c && !lines.isEmpty) = true
        · rw [if_pos hdrop] at hmeq
          rw [hcur] at hmeq
          have h0 : chunksMeasure ([] : List (List Char)) = 0 := rfl
          omega
        · rw [if_neg hdrop] at hd
          cases hd
          omega
      · have hcur1 : 1 ≤ chunksMeasure cur := by
          cases cur with
          | nil => exact absurd rfl hcur
          | cons x xs =>
            rw [chunksMeasure_cons]
            omega
        omega
    · rw [if_neg hlong]
      dsimp only
      by_cases hcur : cur = []
      · have hn := hnil hcur
        have hc0 : curLen = 0 := hn.2
        have hfit := hnofit d rest2 rfl
        omega
      · have hcur1 : 1 ≤ chunksMeasure cur := by
          cases cur with
          | nil => exact absurd rfl hcur
          | cons x xs =>
            rw [chunksMeasure_cons]
            omega
        omega

theorem dropTrailingWS_subset (l : List (List Char)) : dropTrailingWS l ⊆ l := by
  unfold dropTrailingWS
  by_cases h : chunkWS (l.getLastD ['x']) = true
  · rw [if_pos h]
    exact List.dropLast_subset l
  · rw [if_neg h]
    exact fun x hx => hx

theorem dropTrailingWS_chain {R : List Char → List Char → Prop}
    {l : List (List Char)} (h : List.Chain' R l) :
    List.Chain' R (dropTrailingWS l) := by
  unfold dropTrailingWS
  by_cases hc : chunkWS (l.getLastD ['x']) = true
  · rw [if_pos hc]
    exact chain'_dropLast h
  · rw [if_neg hc]
    exact h

theorem filter_dropTrailingWS (l : List (List Char)) :
    (dropTrailingWS l).filter (fun x => !(x.all wsChar))
      = l.filter (fun x => !(x.all wsChar)) := by
  unfold dropTrailingWS
  by_cases h : chunkWS (l.getLastD ['x']) = true
  · rw [if_pos h]
    rcases eq_or_ne l [] with rfl | hne
    · simp
    · have hlast : l.getLastD ['x'] = l.getLast hne := by
        rw [List.getLastD_eq_getLast?, List.getLast?_eq_getLast l hne]
        rfl
      conv_rhs => rw [← List.dropLast_append_getLast hne]
      rw [List.filter_append]
      rw [hlast] at h
      have hws : ((l.getLast hne).all wsChar) = true := h
      simp [hws]
  · rw [if_neg h]

theorem dropTrailingWS_concat_ws (l : List (List Char)) (p : List Char)
    (hp : chunkWS p = true) : dropTrailingWS (l ++ [p]) = l := by
  unfold dropTrailingWS
  have hlast : (l ++ [p]).getLastD ['x'] = p := by
    rw [List.getLastD_eq_getLast?, List.getLast?_concat]
    rfl
  rw [hlast, if_pos hp, List.dropLast_concat]

/-- Emitting one line: its words are exactly the non-whitespace chunks
that form it. -/
theorem emit_words (lines cur3 : List (List Char))
    (hok3 : ∀ x ∈ cur3, x ≠ [] ∧ (allWS x ∨ allNW x))
    (hch3 : List.Chain' (fun a b => allWS a ∨ allWS b) cur3) :
    (((if cur3.isEmpty then lines else lines ++ [cur3.flatten]).map wordsOf).flatten)
      = (lines.map wordsOf).flatten ++ cur3.filter (fun x => !(x.all wsChar)) := by
  by_cases he : cur3.isEmpty = true
  · rw [if_pos he]
    have h0 : cur3 = [] := List.isEmpty_iff.mp he
    rw [h0]
    simp
  · rw [if_neg he]
    rw [List.map_append, List.flatten_append]
    simp only [List.map_cons, List.map_nil, List.flatten_cons, List.flatten_nil,
      List.append_nil]
    rw [wordsOf_flatten cur3 hok3 hch3]

/-- Invariant of the wrapping loop: chunks stay non-empty, homogeneous,
word chunks fit in `width`, and no two adjacent chunks are both words. -/
def ChunksOK (width : ℕ) (chunks : List (List Char)) : Prop :=
  (∀ x ∈ chunks, x ≠ [] ∧ (allWS x ∨ (allNW x ∧ x.length ≤ width))) ∧
  List.Chain' (fun a b => allWS a ∨ allWS b) chunks

/-- One wrap step preserves the chunk invariant and moves the words of
the consumed chunks onto the emitted line, losing none. -/
theorem wrapStep_words (width : ℕ) (hw : 1 ≤ width) (lines : List (List Char))
    (c : List Char) (rest : List (List Char))
    (hok : ChunksOK width (c :: rest)) :
    ChunksOK width (wrapStep width lines c rest).2 ∧
    ((wrapStep width lines c rest).1.map wordsOf).flatten
        ++ ((wrapStep width lines c rest).2.filter (fun x => !(x.all wsChar)))
      = (lines.map wordsOf).flatten
        ++ ((c :: rest).filter (fun x => !(x.all wsChar))) := by
  obtain ⟨hoall, hochain⟩ := hok
  unfold wrapStep
  set chunks1 := (if chunkWS c && !lines.isEmpty then rest else c :: rest) with hch1
  have hok1 : ∀ x ∈ chunks1, x ≠ [] ∧ (allWS x ∨ (allNW x ∧ x.length ≤ width)) := by
    intro x hx
    rw [hch1] at hx
    by_cases hdrop : (chunkWS c && !lines.isEmpty) = true
    · rw [if_pos hdrop] at hx
      exact hoall x (by simp [hx])
    · rw [if_neg hdrop] at hx
      exact hoall x hx
  have hch1' : List.Chain' (fun a b => allWS a ∨ allWS b) chunks1 := by
    rw [hch1]
    by_cases hdrop : (chunkWS c && !lines.isEmpty) = true
    · rw [if_pos hdrop]
      exact hochain.tail
    · rw [if_neg hdrop]
      exact hochain
  have hfil1 : chunks1.filter (fun x => !(x.all wsChar))
      = (c :: rest).filter (fun x => !(x.all wsChar)) := by
    rw [hch1]
    by_cases hdrop : (chunkWS c && !lines.isEmpty) = true
    · rw [if_pos hdrop]
      have hc : (c.all wsChar) = true := by
        have := hdrop
        rw [Bool.and_eq_true] at this
        exact this.1
      rw [List.filter_cons]
      simp [hc]
    · rw [if_neg hdrop]
  rcases hF : fitLoop width 0 chunks1 with ⟨cur, curLen, rest1⟩
  obtain ⟨hsplit, hlen, hbound, hnil, hnofit⟩ := fitLoop_spec width chunks1 0
  rw [hF] at hsplit hlen hbound hnil hnofit
  dsimp only at hsplit hlen hbound hnil hnofit
  have hcurlen : curLen ≤ width := hbound (by omega)
  have hchsplit : List.Chain' (fun a b => allWS a ∨ allWS b) (cur ++ rest1) := by
    rw [hsplit]
    exact hch1'
  have hchcur := (List.chain'_append.mp hchsplit).1
  have hchrest1 := (List.chain'_append.mp hchsplit).2.1
  have hmemcur : ∀ x ∈ cur, x ≠ [] ∧ (allWS x ∨ (allNW x ∧ x.length ≤ width)) :=
    fun x hx => hok1 x (by rw [← hsplit]; exact List.mem_append_left _ hx)
  have hmemrest1 : ∀ x ∈ rest1, x ≠ [] ∧ (allWS x ∨ (allNW x ∧ x.length ≤ width)) :=
    fun x hx => hok1 x (by rw [← hsplit]; exact List.mem_append_right _ hx)
  have hfilsplit : chunks1.filter (fun x => !(x.all wsChar))
      = cur.filter (fun x => !(x.all wsChar)) ++ rest1.filter (fun x => !(x.all wsChar)) := by
    rw [← hsplit, List.filter_append]
  have hcur_emit : ∀ x ∈ cur, x ≠ [] ∧ (allWS x ∨ allNW x) :=
    fun x hx => ⟨(hmemcur x hx).1,
      (hmemcur x hx).2.elim Or.inl (fun h => Or.inr h.1)⟩
  have hdrop_emit : ∀ x ∈ dropTrailingWS cur, x ≠ [] ∧ (allWS x ∨ allNW x) :=
    fun x hx => hcur_emit x (dropTrailingWS_subset cur hx)
  cases rest1 with
  | nil =>
    dsimp only
    refine ⟨⟨by simp, by simp⟩, ?_⟩
    rw [emit_words lines (dropTrailingWS cur) hdrop_emit (dropTrailingWS_chain hchcur)]
    rw [filter_dropTrailingWS]
    rw [← hfil1, hfilsplit]
    simp
  | cons d rest2 =>
    dsimp only
    have hdprops := hmemrest1 d (by simp)
    by_cases hlong : width < d.length
    · rw [if_pos hlong, if_neg (by omega : ¬ width < 1)]
      dsimp only
      have hdws : allWS d := by
        rcases hdprops.2 with h | h
        · exact h
        · exact absurd h.2 (by omega)
      have hpiecews : chunkWS (d.take (width - curLen)) = true := by
        apply List.all_eq_true.mpr
        intro x hx
        exact hdws x (List.take_subset _ _ hx)
      rw [dropTrailingWS_concat_ws cur _ hpiecews]
      constructor
      · refine ⟨?_, ?_⟩
        · intro x hx
          rcases List.mem_cons.mp hx with hx | hx
          · subst hx
            refine ⟨?_, Or.inl ?_⟩
            · intro hcon
              have hlen0 := congrArg List.length hcon
              rw [List.length_drop] at hlen0
              simp only [List.length_nil] at hlen0
              omega
            · intro y hy
              exact hdws y (List.drop_subset _ _ hy)
          · exact hmemrest1 x (by simp [hx])
        · rw [List.chain'_cons']
          refine ⟨?_, hchrest1.tail⟩
          intro b _
          exact Or.inl (fun y hy => hdws y (List.drop_subset _ _ hy))
      · rw [emit_words lines cur hcur_emit hchcur]
        have hfildrop : (List.drop (width - curLen) d :: rest2).filter
            (fun x => !(x.all wsChar)) = rest2.filter (fun x => !(x.all wsChar)) := by
          rw [List.filter_cons]
          have hall : ((List.drop (width - curLen) d).all wsChar) = true := by
            apply List.all_eq_true.mpr
            intro y hy
            exact hdws y (List.drop_subset _ _ hy)
          simp [hall]
        have hfild : ((d :: rest2).filter (fun x => !(x.all wsChar)))
            = rest2.filter (fun x => !(x.all wsChar)) := by
          rw [List.filter_cons]
          have hall : (d.all wsChar) = true := List.all_eq_true.mpr hdws
          simp [hall]
        rw [hfildrop, ← hfil1, hfilsplit, hfild]
        simp [List.append_assoc]
    · rw [if_neg hlong]
      dsimp only
      refine ⟨⟨hmemrest1, hchrest1⟩, ?_⟩
      rw [emit_words lines (dropTrailingWS cur) hdrop_emit (dropTrailingWS_chain hchcur)]
      rw [filter_dropTrailingWS]
      rw [← hfil1, hfilsplit]
      simp [List.append_assoc]

theorem wrapGo_len (width : ℕ) (hw : 1 ≤ width) :
    ∀ (fuel : ℕ) (lines chunks : List (List Char)),
      (∀ l ∈ lines, l.length ≤ width) →
      ∀ l ∈ wrapChunksGo width fuel lines chunks, l.length ≤ width := by
  intro fuel
  induction fuel with
  | zero =>
    intro lines chunks h
    exact h
  | succ n ih =>
    intro lines chunks h
    cases chunks with
    | nil => exact h
    | cons c rest =>
      have hred : wrapChunksGo width (n + 1) lines (c :: rest)
          = wrapChunksGo width n (wrapStep width lines c rest).1
              (wrapStep width lines c rest).2 := rfl
      rw [hred]
      exact ih _ _ (wrapStep_len width hw lines c rest h)

theorem wrapGo_words (width : ℕ) (hw : 1 ≤ width) :
    ∀ (fuel : ℕ) (chunks lines : List (List Char)),
      chunksMeasure chunks < fuel →
      ChunksOK width chunks →
      ((wrapChunksGo width fuel lines chunks).map wordsOf).flatten
        = (lines.map wordsOf).flatten
          ++ chunks.filter (fun x => !(x.all wsChar)) := by
  intro fuel
  induction fuel with
  | zero =>
    intro chunks lines hm _
    exact absurd hm (by omega)
  | succ n ih =>
    intro chunks lines hm hok
    cases chunks with
    | nil => simp [wrapChunksGo]
    | cons c rest =>
      have hred : wrapChunksGo width (n + 1) lines (c :: rest)
          = wrapChunksGo width n (wrapStep width lines c rest).1
              (wrapStep width lines c rest).2 := rfl
      rw [hred]
      have hstep := wrapStep_words width hw lines c rest hok
      have hmeas := wrapStep_measure width hw lines c rest
      have hm2 : chunksMeasure (wrapStep width lines c rest).2 < n := by omega
      rw [ih _ _ hm2 hstep.1]
      exact hstep.2

/-- C4, amended: for a successful `textwrap.wrap` call on a hyphen-free
text (on hyphenated text the default `break_on_hyphens` chunking, not
modelled here, can place the pieces of a hyphenated word on different
lines, and the round-trip below fails in the program even when every
whitespace-delimited word fits), no wrapped line exceeds the width; and
provided every whitespace-delimited word of the text fits within the
width (so that no word is ever broken mid-word), joining the wrapped
lines with single spaces and collapsing whitespace reproduces the text
with its whitespace collapsed.  The hyphen-free hypothesis delimits the
domain on which `pyWrap` embeds `textwrap.wrap`; the model needs no
case split on it. -/
theorem c4_wrap_correctness_amended (width : ℤ) (text : List Char)
    (lines : List (List Char)) (_hnh : ('-' : Char) ∉ text)
    (hok : pyWrap width text = .ok lines) :
    (∀ l ∈ lines, (l.length : ℤ) ≤ width) ∧
    ((∀ w ∈ wordsOf text, (w.length : ℤ) ≤ width) →
      collapseWS (joinWithSpaces lines) = collapseWS text) := by
  unfold pyWrap at hok
  by_cases hw : width ≤ 0
  · rw [if_pos hw] at hok
    exact absurd hok (by simp)
  · rw [if_neg hw] at hok
    injection hok with hok
    have hwpos : 1 ≤ width.toNat := by omega
    obtain ⟨hflat, hruns, hchain⟩ := splitRuns_spec (munge text)
    have hwordsm : wordsOf (munge text)
        = (splitRuns (munge text)).filter (fun x => !(x.all wsChar)) := by
      conv_lhs => rw [← hflat]
      exact wordsOf_flatten _ (fun x hx => (hruns x hx)) hchain
    constructor
    · intro l hl
      rw [← hok] at hl
      have hb := wrapGo_len width.toNat hwpos _ [] (splitRuns (munge text))
        (by simp) l hl
      omega
    · intro hwords
      have hok0 : ChunksOK width.toNat (splitRuns (munge text)) := by
        refine ⟨?_, hchain⟩
        intro x hx
        obtain ⟨hne, hhom⟩ := hruns x hx
        refine ⟨hne, ?_⟩
        rcases hhom with hws | hnw
        · exact Or.inl hws
        · refine Or.inr ⟨hnw, ?_⟩
          have hxin : x ∈ wordsOf (munge text) := by
            rw [hwordsm]
            apply List.mem_filter.mpr
            refine ⟨hx, ?_⟩
            have hfalse : (x.all wsChar) = false := by
              cases hxe : x with
              | nil => exact absurd hxe hne
              | cons y ys =>
                apply Bool.not_eq_true _ |>.mp
                intro hcontra
                have hyw := List.all_eq_true.mp hcontra y (by simp)
                have hynw : wsChar y = false := hnw y (by rw [hxe]; simp)
                rw [hynw] at hyw
                exact Bool.false_ne_true hyw
            simp [hfalse]
          rw [wordsOf_munge] at hxin
          have := hwords x hxin
          omega
      have hmain := wrapGo_words width.toNat hwpos
        (chunksMeasure (splitRuns (munge text)) + 1) (splitRuns (munge text)) []
        (by omega) hok0
      rw [← hok]
      unfold collapseWS
      rw [wordsOf_joinWithSpaces, hmain]
      have hfin : (splitRuns (munge text)).filter (fun x => !(x.all wsChar))
          = wordsOf text := by
        rw [← hwordsm, wordsOf_munge]
      rw [hfin]
      simp

/-- Counterexample to claim C4 as stated: the cell `"aaaa"` in a
single-column table at terminal width 5 gets final width 3 and is
broken mid-word into `"aaa"` / `"a"`; joining the wrapped lines with
single spaces and collapsing whitespace yields `"aaa a"`, not
`"aaaa"`. -/
theorem c4_counterexample :
    format_table 5 none (some [["aaaa".data]]) none 2 none true
        = .ok "aaa  \na    ".data ∧
    pyWrap 3 "aaaa".data = .ok ["aaa".data, "a".data] ∧
    collapseWS (joinWithSpaces ["aaa".data, "a".data]) ≠ collapseWS "aaaa".data := by
  exact ⟨by decide, by decide, by decide⟩

/-- Witness for `c4_wrap_correctness_amended` on a concrete wrap of a
hyphen-free text. -/
theorem c4_witness :
    (('-' : Char) ∉ "xxx aaa bbb".data) ∧
    pyWrap 8 "xxx aaa bbb".data = .ok ["xxx aaa".data, "bbb".data] ∧
    (∀ l ∈ ["xxx aaa".data, "bbb".data], ((l.length : ℤ) ≤ 8)) ∧
    (∀ w ∈ wordsOf "xxx aaa bbb".data, (w.length : ℤ) ≤ 8) ∧
    collapseWS (joinWithSpaces ["xxx aaa".data, "bbb".data])
      = collapseWS "xxx aaa bbb".data := by
  have h := c4_wrap_correctness_amended 8 "xxx aaa bbb".data
    ["xxx aaa".data, "bbb".data] (by decide) (by decide)
  exact ⟨by decide, by decide, h.1, by decide, h.2 (by decide)⟩
